import Mathlib

/-!
Verification development for the agentpay payment router.

The Go sources are embedded shallowly:
* pure functions become Lean functions over `String`, `List Char`, `Nat`, `Int`, `ℚ`;
* Go `float64` values are modelled as exact rationals (`ℚ`); every arithmetic
  step mirrors the corresponding Go operation, but binary rounding is not
  modelled, which is noted at each definition it could affect;
* stateful code (the Router ledger) becomes explicit state passing;
* Go standard-library calls whose internals are irrelevant to a claim
  (`json.Unmarshal` into a fixed struct, the HTTP transport, `rand.Read`,
  clocks) are supplied as explicit oracle inputs so that every run of the
  embedded code corresponds to one concrete run of the source.
-/

deriving instance DecidableEq for Except

namespace Agentpay

/-! ## Go string helpers (strings package) -/

/-- Decimal digit value of a character, `none` for non-digits. -/
def digitVal (c : Char) : Option Nat :=
  if c.isDigit then some (c.toNat - 48) else none

/-- Read a maximal run of decimal digits, returning them and the rest. -/
def readDigits : List Char → List Nat × List Char
  | [] => ([], [])
  | c :: cs =>
    match digitVal c with
    | some d => let p := readDigits cs; (d :: p.1, p.2)
    | none => ([], c :: cs)

/-- Digits (most significant first) to a natural number. -/
def natOfDigits (ds : List Nat) : Nat :=
  ds.foldl (fun a d => a * 10 + d) 0

/-- `strings.HasPrefix`. -/
def goHasPrefix (s pre : String) : Bool :=
  pre.data.isPrefixOf s.data

/-- Split a character list at the first occurrence of `sep`;
`none` when `sep` does not occur.  Models the slicing done around
`strings.Index` / the two-way case of `strings.SplitN(s, sep, 2)`. -/
def splitAtFirst (sep : Char) : List Char → Option (List Char × List Char)
  | [] => none
  | c :: cs =>
    if c = sep then some ([], cs)
    else (splitAtFirst sep cs).map (fun p => (c :: p.1, p.2))

/-- `strings.Split(s, sep)` for a one-character separator. -/
def splitChar (sep : Char) : List Char → List (List Char)
  | [] => [[]]
  | c :: cs =>
    let r := splitChar sep cs
    if c = sep then [] :: r
    else
      match r with
      | a :: rest => (c :: a) :: rest
      | [] => [[c]]

/-- The white-space set of Go `unicode.IsSpace` restricted to Latin-1
(space, tab, newline, vertical tab, form feed, carriage return, NEL, NBSP);
code points above U+00FF in the space category are not modelled. -/
def isGoSpace (c : Char) : Bool :=
  c = ' ' ∨ c = '\t' ∨ c = '\n' ∨ c = Char.ofNat 11 ∨ c = Char.ofNat 12 ∨
    c = '\r' ∨ c = Char.ofNat 133 ∨ c = Char.ofNat 160

/-- `strings.TrimSpace` on a character list. -/
def trimSpace (cs : List Char) : List Char :=
  ((cs.dropWhile isGoSpace).reverse.dropWhile isGoSpace).reverse

/-- `strings.Trim(s, "\"")`: drop any number of double quotes at both ends. -/
def trimQuotes (cs : List Char) : List Char :=
  let q := Char.ofNat 34
  ((cs.dropWhile (· = q)).reverse.dropWhile (· = q)).reverse

/-! ## Kernel-reducible rational arithmetic

Go `float64` arithmetic is modelled on `ℚ`.  The `Rat` field operations
of the ambient library are `@[irreducible]`, which would keep concrete
runs of the embedded code from evaluating inside the kernel, so the
four operations (and the derived ones) are re-stated through `mkRat`
and proved equal to the library operations; all later definitions use
these wrappers, and all later proofs rewrite them away first. -/

def qadd (a b : ℚ) : ℚ := mkRat (a.num * b.den + b.num * a.den) (a.den * b.den)

def qsub (a b : ℚ) : ℚ := mkRat (a.num * b.den - b.num * a.den) (a.den * b.den)

def qmul (a b : ℚ) : ℚ := mkRat (a.num * b.num) (a.den * b.den)

def qinv (a : ℚ) : ℚ := Rat.divInt a.den a.num

def qdiv (a b : ℚ) : ℚ := qmul a (qinv b)

def qneg (a : ℚ) : ℚ := qsub 0 a

/-- Absolute value on `ℚ` by cases (kernel-reducible). -/
def qabs (v : ℚ) : ℚ := if v < 0 then qneg v else v

theorem qadd_eq (a b : ℚ) : qadd a b = a + b := (Rat.add_def' a b).symm

theorem qsub_eq (a b : ℚ) : qsub a b = a - b := (Rat.sub_def' a b).symm

theorem qmul_eq (a b : ℚ) : qmul a b = a * b := by
  rw [Rat.mul_def, Rat.normalize_eq_mkRat]; rfl

theorem qinv_eq (a : ℚ) : qinv a = a⁻¹ := by
  rw [show (a⁻¹ : ℚ) = a.inv from rfl, Rat.inv_def]; rfl

theorem qdiv_eq (a b : ℚ) : qdiv a b = a / b := by
  rw [qdiv, qmul_eq, qinv_eq, div_eq_mul_inv]

theorem qneg_eq (a : ℚ) : qneg a = -a := by rw [qneg, qsub_eq, zero_sub]

theorem qabs_eq (a : ℚ) : qabs a = |a| := by
  rw [qabs]
  rcases le_or_lt 0 a with h | h
  · rw [if_neg (not_lt.2 h), abs_of_nonneg h]
  · rw [if_pos h, qneg_eq, abs_of_neg h]

/-! ## `strconv.ParseFloat` (strconv package)

`strconv.ParseFloat(s, 64)` is modelled as a partial function to
`GoFloat` (a rational, `±Inf`, or `NaN`): `none` is `err != nil` (syntax
error, or the range error Go reports alongside `±Inf`/`0` for values
that overflow or underflow `float64`), `some` is `err == nil` with the
parsed value.  The model covers the whole input syntax: optional sign;
the case-insensitive specials `Inf`/`Infinity` (signed) and `NaN`
(unsigned); decimal mantissa and exponent; hexadecimal mantissa with
mandatory binary exponent (`0x1.8p-2`); digit-separating underscores
validated as in Go's `underscoreOK`.  Not modelled: rounding to
binary64 — a finite parsed value is kept exact, and over/underflow is
approximated by the two magnitude cut-offs below. -/

/-- `10 ^ n` as a rational (kept in `ℕ` so the kernel computes it fast). -/
def pow10 (n : Nat) : ℚ := ((Nat.pow 10 n : ℕ) : ℚ)

/-- The overflow cut-off approximating where Go reports a range error:
the literal is `2 ^ 1024`, written out so the kernel treats it as one
numeral. -/
def maxFloatN : ℕ := 179769313486231590772930519078902473361797697894230657273430081157732675805500963132708477322407536021120113879871393357658789768814416622492847430639474124377767893424865485276302219601246094119453082952085005768838150682342462881473913110540827237163350510684586298239947245938479716304835356329624224137216

def maxFloatQ : ℚ := (maxFloatN : ℚ)

/-- Denominator of the underflow cut-off (`2 ^ 1080`, below the
smallest subnormal `float64`), written out as one numeral. -/
def minFloatDenN : ℕ := 12953744211667879574559702190010707651171625584905095574841686913755541732351702201085464556891975967691972983316275962328947759192690782519488857596207264634977115153700247127325882095493965845839345131422255684387968478939180332711558614761546211605811843616790961251349338535374752162059924960553344400851693295429983666176

def minFloatQ : ℚ := qdiv 1 (minFloatDenN : ℚ)

/-- A `float64` as seen through exact arithmetic: a finite value is the
exact rational the decimal or hexadecimal literal denotes. -/
inductive GoFloat where
  | finite (q : ℚ)
  | posInf
  | negInf
  | nan
  deriving Repr, DecidableEq

/-- Go `<` on `float64`: `NaN` compares false against everything. -/
def goFloatLt : GoFloat → GoFloat → Bool
  | .nan, _ => false
  | _, .nan => false
  | .negInf, .negInf => false
  | .negInf, _ => true
  | _, .negInf => false
  | .posInf, _ => false
  | .finite _, .posInf => true
  | .finite a, .finite b => decide (a < b)

/-- `x / 1e6` (USDC base units to USD); `±Inf` and `NaN` are fixed
points of the division. -/
def goDivMillion : GoFloat → GoFloat
  | .finite q => .finite (qdiv q 1000000)
  | x => x

/-- `math.MaxFloat64` exactly: `2 ^ 1024 - 2 ^ 971`, one numeral. -/
def maxFloat64N : ℕ := 179769313486231570814527423731704356798070567525844996598917476803157260780028538760589558632766878171540458953514382464234321326889464182768467546703537516986049910576551282076245490090389328944075868508455133942304583236903222948165808559332123348274797826204144723168738177180919299881250404026184124858368

def maxFloat64Q : ℚ := (maxFloat64N : ℚ)

def mathMaxFloat64 : GoFloat := .finite maxFloat64Q

/-- The rational shadow of a `GoFloat`, used where the Router model's
rational-valued ledger consumes a provider estimate.  `±Inf`/`NaN` have
no rational counterpart and are mapped to `0`; every concrete run in
this development has finite costs, and the Router theorems quantify
over arbitrary provider models, so no statement depends on that arm. -/
def GoFloat.toRat : GoFloat → ℚ
  | .finite q => q
  | _ => 0

/-- ASCII lower-casing (`strconv`'s `lower`). -/
def lowerChar (c : Char) : Char :=
  if 'A' ≤ c ∧ c ≤ 'Z' then Char.ofNat (c.toNat + 32) else c

/-- Hex digit value (both cases). -/
def hexVal (c : Char) : Option Nat :=
  if c.isDigit then some (c.toNat - 48)
  else if 'a' ≤ c ∧ c ≤ 'f' then some (c.toNat - 87)
  else if 'A' ≤ c ∧ c ≤ 'F' then some (c.toNat - 55)
  else none

/-- Read a maximal run of hexadecimal digits. -/
def readHexDigits : List Char → List Nat × List Char
  | [] => ([], [])
  | c :: cs =>
    match hexVal c with
    | some d => let p := readHexDigits cs; (d :: p.1, p.2)
    | none => ([], c :: cs)

/-- Hex digits (most significant first) to a natural number. -/
def natOfHexDigits (ds : List Nat) : Nat :=
  ds.foldl (fun a d => a * 16 + d) 0

def pow16 (n : Nat) : ℚ := ((Nat.pow 16 n : ℕ) : ℚ)

def pow2Q (n : Nat) : ℚ := ((Nat.pow 2 n : ℕ) : ℚ)

/-- `strconv.special`: the case-insensitive strings `Inf`/`Infinity`
(optionally signed) and the unsigned `NaN`, matched against the whole
input as `ParseFloat` does. -/
def parseFloatSpecial (cs : List Char) : Option GoFloat :=
  let signed : Bool × List Char :=
    match cs with
    | '+' :: t => (false, t)
    | '-' :: t => (true, t)
    | _ => (false, cs)
  let l := signed.2.map lowerChar
  if l = ['i', 'n', 'f'] ∨ l = ['i', 'n', 'f', 'i', 'n', 'i', 't', 'y'] then
    some (if signed.1 then .negInf else .posInf)
  else if cs.map lowerChar = ['n', 'a', 'n'] then some .nan
  else none

/-- `strconv.underscoreOK`, one scanned character at a time.  The state
`saw` is `'^'` at the start of the number, `'0'` after a digit (or the
base prefix), `'_'` after an underscore, `'!'` otherwise; an underscore
must follow and be followed by a digit. -/
def underscoreOKAux (hex : Bool) : Char → List Char → Bool
  | saw, [] => ¬ saw = '_'
  | saw, c :: t =>
    if c.isDigit ∨ (hex ∧ 'a' ≤ lowerChar c ∧ lowerChar c ≤ 'f') then
      underscoreOKAux hex '0' t
    else if c = '_' then
      if saw = '0' then underscoreOKAux hex '_' t else false
    else if saw = '_' then false
    else underscoreOKAux hex '!' t

def underscoreOK (cs0 : List Char) : Bool :=
  let cs1 : List Char :=
    match cs0 with
    | '+' :: t => t
    | '-' :: t => t
    | _ => cs0
  match cs1 with
  | '0' :: x :: t =>
    if x = 'x' ∨ x = 'X' then underscoreOKAux true '0' t
    else underscoreOKAux false '^' cs1
  | _ => underscoreOKAux false '^' cs1

def stripUnderscores (cs : List Char) : List Char :=
  cs.filter (fun c => ¬ c = '_')

/-- The range error: `none` past the overflow cut-off, `none` below the
underflow cut-off (zero excepted), the value itself otherwise. -/
def rangeCheck (v : ℚ) : Option ℚ :=
  if maxFloatQ < qabs v then none
  else if v ≠ 0 ∧ qabs v < minFloatQ then none
  else some v

def parseFloatCore (cs0 : List Char) : Option ℚ :=
  let signed : Bool × List Char :=
    match cs0 with
    | '+' :: t => (false, t)
    | '-' :: t => (true, t)
    | _ => (false, cs0)
  let neg := signed.1
  let p1 := readDigits signed.2
  let ip := p1.1
  let p2 : List Nat × List Char :=
    match p1.2 with
    | '.' :: t => readDigits t
    | _ => ([], p1.2)
  let fp := p2.1
  if ip = [] ∧ fp = [] then none
  else
    let mant : ℚ := qadd (natOfDigits ip : ℚ) (qdiv (natOfDigits fp : ℚ) (pow10 fp.length))
    let body : Option ℚ :=
      match p2.2 with
      | [] => some mant
      | e :: t =>
        if e = 'e' ∨ e = 'E' then
          let esigned : Bool × List Char :=
            match t with
            | '+' :: t2 => (false, t2)
            | '-' :: t2 => (true, t2)
            | _ => (false, t)
          let p3 := readDigits esigned.2
          if p3.1 = [] ∨ p3.2 ≠ [] then none
          else if esigned.1 then some (qdiv mant (pow10 (natOfDigits p3.1)))
          else some (qmul mant (pow10 (natOfDigits p3.1)))
        else none
    match body with
    | none => none
    | some v => rangeCheck (if neg then qneg v else v)

/-- The hexadecimal branch of `ParseFloat`: hex mantissa (digits around
an optional dot, at least one in total), mandatory `p`/`P` binary
exponent, the same range cut-offs as the decimal branch. -/
def parseHexFloat (neg : Bool) (cs : List Char) : Option ℚ :=
  let p1 := readHexDigits cs
  let ip := p1.1
  let p2 : List Nat × List Char :=
    match p1.2 with
    | '.' :: t => readHexDigits t
    | _ => ([], p1.2)
  let fp := p2.1
  if ip = [] ∧ fp = [] then none
  else
    match p2.2 with
    | [] => none
    | e :: t =>
      if e = 'p' ∨ e = 'P' then
        let esigned : Bool × List Char :=
          match t with
          | '+' :: t2 => (false, t2)
          | '-' :: t2 => (true, t2)
          | _ => (false, t)
        let p3 := readDigits esigned.2
        if p3.1 = [] ∨ p3.2 ≠ [] then none
        else
          let mant : ℚ := qdiv ((natOfHexDigits (ip ++ fp) : ℕ) : ℚ) (pow16 fp.length)
          let ex := natOfDigits p3.1
          let v0 : ℚ := if esigned.1 then qdiv mant (pow2Q ex) else qmul mant (pow2Q ex)
          rangeCheck (if neg then qneg v0 else v0)
      else none

/-- `strconv.ParseFloat(s, 64)` with `err == nil` as `some`: specials
first, then underscore validation and stripping, then the hexadecimal
or decimal number syntax. -/
def parseFloat? (s : String) : Option GoFloat :=
  match parseFloatSpecial s.data with
  | some v => some v
  | none =>
    if s.data.contains '_' ∧ underscoreOK s.data = false then none
    else
      let cs1 := stripUnderscores s.data
      let body : List Char :=
        match cs1 with
        | '+' :: t => t
        | '-' :: t => t
        | _ => cs1
      let neg : Bool :=
        match cs1 with
        | '-' :: _ => true
        | _ => false
      match body with
      | '0' :: x :: t =>
        if x = 'x' ∨ x = 'X' then (parseHexFloat neg t).map .finite
        else (parseFloatCore cs1).map .finite
      | _ => (parseFloatCore cs1).map .finite

/-! ## x402 data model (router/protocol.go) -/

/-- `X402Accept` — one payment option within an x402 challenge. -/
structure X402Accept where
  scheme : String
  network : String
  maxAmountRequired : String
  resource : String
  description : String
  mimeType : String
  payTo : String
  maxTimeoutSeconds : Int
  asset : String
  extra : String
  deriving Repr, DecidableEq

/-- `X402Requirement` — the parsed x402 payment-required header. -/
structure X402Requirement where
  accepts : List X402Accept
  deriving Repr, DecidableEq

/-- `Protocol` — payment protocol tag. -/
inductive Protocol where
  | unknown
  | x402
  | l402
  deriving Repr, DecidableEq

/-- `Protocol.String()`. -/
def Protocol.toGoString : Protocol → String
  | .x402 => "x402"
  | .l402 => "L402"
  | .unknown => "unknown"

/-- `PaymentRequirement` — the parsed 402 challenge. -/
structure PaymentRequirement where
  protocol : Protocol
  raw : String
  x402Requirement : Option X402Requirement
  l402Invoice : String
  l402Hash : String
  deriving Repr, DecidableEq

/-! ## x402 EstimateCost (providers, X402Provider and CDPProvider)

Both `X402Provider.EstimateCost` and `CDPProvider.EstimateCost` run the
identical loop: scan `accepts`, `strconv.ParseFloat` each
`maxAmountRequired` (`err != nil` means `continue`), divide by 1e6, and
keep the entry with the strictly smallest USD value (`usd <
cheapestUSD`, so the first of equals wins).  `cheapestUSD` starts at
`math.MaxFloat64`: an entry whose amount parses to `+Inf` or `NaN` is
never selected — not even as the first — because `usd < cheapestUSD` is
false for them, while every finite parsed value divided by 1e6 lies
below `math.MaxFloat64` (the parse rejects magnitudes past `2^1024`)
and `-Inf` always wins.  They differ only in the description string.
The scan is embedded once, with the accumulator `none` standing for
`cheapest == nil ∧ cheapestUSD == math.MaxFloat64` (a selected `usd` is
always strictly below `math.MaxFloat64`, so the state never recurs). -/

/-- The provider scan loop with explicit accumulator. -/
def cheapestScan : List X402Accept → Option (GoFloat × X402Accept) → Option (GoFloat × X402Accept)
  | [], acc => acc
  | o :: os, acc =>
    cheapestScan os
      (match parseFloat? o.maxAmountRequired with
       | none => acc
       | some amount =>
         let usd := goDivMillion amount
         match acc with
         | none => if goFloatLt usd mathMaxFloat64 then some (usd, o) else none
         | some pr => if goFloatLt usd pr.1 then some (usd, o) else some pr)

/-- The shared body of both `EstimateCost` implementations,
returning the USD cost and the selected accept entry. -/
def estimateCostX402 (accepts : List X402Accept) : Except String (GoFloat × X402Accept) :=
  if accepts.isEmpty then .error "no x402 payment options"
  else
    match cheapestScan accepts none with
    | none => .error "no parseable payment amounts"
    | some pr => .ok pr

/-- Go `fmt` `%.4f` on an exact rational: round to 4 decimal places
(ties to even, as Go's decimal conversion does on the exact value of
the binary float) and print with a sign taken from the input. -/
def fmt4 (q : ℚ) : String :=
  let m : ℚ := qmul (qabs q) 10000
  let fl : Int := m.num / (m.den : Int)
  let fr : ℚ := qsub m (fl : ℚ)
  let half : ℚ := qdiv 1 2
  let n : Int :=
    if half < fr then fl + 1
    else if fr < half then fl
    else if fl % 2 = 0 then fl else fl + 1
  let ip := n / 10000
  let fp := (n % 10000).toNat
  let fs := toString fp
  let pad := String.mk (List.replicate (4 - fs.length) '0')
  (if q < 0 then "-" else "") ++ toString ip ++ "." ++ pad ++ fs

/-- `fmt` `%.4f` on a `float64` value (`fmt` prints the specials as
`+Inf`/`-Inf`/`NaN` regardless of precision). -/
def fmt4Go : GoFloat → String
  | .finite q => fmt4 q
  | .posInf => "+Inf"
  | .negInf => "-Inf"
  | .nan => "NaN"

/-- `X402Provider.EstimateCost` (AgentWallet-backed provider):
the shared scan plus the provider's description string. -/
def X402Provider.EstimateCost (req : PaymentRequirement) : Except String (GoFloat × String) :=
  match req.x402Requirement with
  | none => .error "no x402 payment options"
  | some x =>
    match estimateCostX402 x.accepts with
    | .error e => .error e
    | .ok pr => .ok (pr.1, "$" ++ fmt4Go pr.1 ++ " USDC on " ++ pr.2.network)

/-- `CDPProvider.EstimateCost`: identical scan, CDP-tagged description. -/
def CDPProvider.EstimateCost (req : PaymentRequirement) : Except String (GoFloat × String) :=
  match req.x402Requirement with
  | none => .error "no x402 payment options"
  | some x =>
    match estimateCostX402 x.accepts with
    | .error e => .error e
    | .ok pr => .ok (pr.1, "$" ++ fmt4Go pr.1 ++ " USDC on " ++ pr.2.network ++ " (CDP)")

/-! ## Sample inputs used by concrete runs -/

/-- An accept entry whose amount is the string "Inf": Go
`strconv.ParseFloat` parses it with `err == nil` to `+Inf`. -/
def sampleAcceptInf : X402Accept :=
  ⟨"exact", "eip155:84532", "Inf", "", "", "", "0xabc", 60, "USDC", ""⟩

/-- An accept entry offering 50000 USDC base units (0.05 USD). -/
def sampleAccept50000 : X402Accept :=
  ⟨"exact", "eip155:84532", "50000", "", "", "", "0xabc", 60, "USDC", ""⟩

/-- An accept entry offering 10000 USDC base units (0.01 USD). -/
def sampleAccept10000 : X402Accept :=
  ⟨"exact", "solana:devnet", "10000", "", "", "", "0xdef", 60, "USDC", ""⟩

/-- An accept entry with a negative `maxAmountRequired` ("-5"). -/
def sampleAcceptNeg : X402Accept :=
  ⟨"exact", "eip155:84532", "-5", "", "", "", "0xabc", 60, "USDC", ""⟩

/-- An accept entry whose amount does not parse at all. -/
def sampleAcceptBad : X402Accept :=
  ⟨"exact", "eip155:84532", "not-a-number", "", "", "", "0xabc", 60, "USDC", ""⟩

/-! ## WoT trust checker (router package)

`GetScore` performs the HTTP GET with the 5-second client and decodes
the JSON; its three failure paths (transport error, non-200 status,
JSON parse error) all surface as an error to `CheckTrust`.  The whole
of `GetScore` is therefore supplied as an oracle function fixed per
checker, and `CheckTrust` is embedded over it; its second result
records whether the network was consulted at all. -/

/-- `WoTScore` — a trust score result. -/
structure WoTScore where
  pubkey : String
  score : ℚ
  rank : Int
  deriving Repr, DecidableEq

/-- `WoTChecker` (endpoint and HTTP client folded into `getScore`). -/
structure WoTChecker where
  minScore : ℚ
  thresholdUSD : ℚ
  getScore : String → Except String WoTScore

/-- The data interpolated into the low-trust error message
`recipient %s has low trust score (%.6f < %.6f minimum)`. -/
structure LowTrustError where
  recipient : String
  score : ℚ
  minScore : ℚ
  deriving Repr, DecidableEq

/-- `NewWoTChecker`: MinScore 0.001, ThresholdUSD 0.10. -/
def NewWoTChecker (getScore : String → Except String WoTScore) : WoTChecker :=
  ⟨qdiv 1 1000, qdiv 1 10, getScore⟩

/-- `WoTChecker.CheckTrust`. -/
def WoTChecker.CheckTrust (w : WoTChecker) (recipientID : String) (usdAmount : ℚ) :
    Option LowTrustError × Bool :=
  if usdAmount < w.thresholdUSD then (none, false)
  else
    match w.getScore recipientID with
    | .error _ => (none, true)
    | .ok sc =>
      if sc.score < w.minScore then (some ⟨recipientID, sc.score, w.minScore⟩, true)
      else (none, true)

/-- A checker whose trust service reports score 0.0001 for every key. -/
def sampleWoT : WoTChecker :=
  NewWoTChecker (fun _ => .ok ⟨"0xuntrusted", qdiv 1 10000, 0⟩)

/-! ## Protocol detection (router/protocol.go)

`DetectProtocol` inspects three header values (`resp.Header.Get` is
case-insensitive in Go; the looked-up values are the model's inputs)
and the buffered body.  Two standard-library decoding steps are
supplied as oracle inputs: `x402HeaderDecode` is the combined result of
`base64.StdEncoding.DecodeString` (with raw-JSON fallback) plus the
object-or-array `json.Unmarshal` in `parseX402Header` (`none` means
both unmarshal attempts failed), and `l402BodyDecode` is the result of
`json.Unmarshal` of the body into the `{invoice, payment_hash, pr}`
struct (`none` means JSON parse error). -/

/-- The error values of router/errors.go reachable from detection,
plus `ErrNoProvider`/`ErrBudgetExceeded` used by the Router. -/
inductive DetectError where
  | parseX402
  | malformedL402
  | missingInvoice
  | unknownProtocol
  deriving Repr, DecidableEq

/-- The fields of the anonymous struct `parseL402Body` unmarshals into. -/
structure L402BodyFields where
  invoice : String
  paymentHash : String
  pr : String
  deriving Repr, DecidableEq

/-- The slice of an HTTP response consulted by 402 handling. -/
structure Response402 where
  statusCode : Nat
  body : String
  paymentRequired : String
  xPaymentRequired : String
  wwwAuthenticate : String
  x402HeaderDecode : Option X402Requirement
  l402BodyDecode : Option L402BodyFields
  deriving Repr, DecidableEq

/-- The header fallback at the top of `DetectProtocol`:
`Payment-Required`, else `X-Payment-Required`. -/
def effectivePaymentHeader (resp : Response402) : String :=
  if resp.paymentRequired = "" then resp.xPaymentRequired else resp.paymentRequired

/-- `parseX402Header` over the decode oracle. -/
def parseX402Header (header : String) (decoded : Option X402Requirement) :
    Except DetectError PaymentRequirement :=
  match decoded with
  | none => .error .parseX402
  | some r => .ok ⟨.x402, header, some r, "", ""⟩

/-- `parseHeaderParams`: split on commas, trim, split each part at the
first `=`, trim key and value, strip surrounding double quotes from the
value; parts without `=` are skipped.  The Go map is modelled as the
assoc list of insertions in order. -/
def parseHeaderParams (s : String) : List (String × String) :=
  (splitChar ',' s.data).foldl
    (fun params part =>
      let part := trimSpace part
      match splitAtFirst '=' part with
      | none => params
      | some kv =>
        params ++ [((trimSpace kv.1).asString, (trimQuotes (trimSpace kv.2)).asString)])
    []

/-- Go map lookup with the zero value for a missing key: the last
insertion wins, matching map overwrite semantics. -/
def lookupParam (params : List (String × String)) (k : String) : String :=
  (params.foldl (fun acc kv => if kv.1 = k then some kv.2 else acc) none).getD ""

/-- `parseL402Challenge`: `strings.SplitN(header, " ", 2)`, then the
key=value parameters; `invoice` is required. -/
def parseL402Challenge (header : String) : Except DetectError PaymentRequirement :=
  match splitAtFirst ' ' header.data with
  | none => .error .malformedL402
  | some parts =>
    let params := parseHeaderParams parts.2.asString
    let invoice := lookupParam params "invoice"
    if invoice = "" then .error .missingInvoice
    else .ok ⟨.l402, header, none, invoice, lookupParam params "payment_hash"⟩

/-- `parseL402Body` over the unmarshal oracle: `invoice`, falling back
to `pr`; both empty (or a parse error) is no match. -/
def parseL402Body (body : String) (decoded : Option L402BodyFields) :
    Except DetectError PaymentRequirement :=
  match decoded with
  | none => .error .unknownProtocol
  | some d =>
    let invoice := if d.invoice = "" then d.pr else d.invoice
    if invoice = "" then .error .unknownProtocol
    else .ok ⟨.l402, body, none, invoice, d.paymentHash⟩

/-- `DetectProtocol`. -/
def DetectProtocol (resp : Response402) : Except DetectError PaymentRequirement :=
  let ph := effectivePaymentHeader resp
  if ph ≠ "" then parseX402Header ph resp.x402HeaderDecode
  else if goHasPrefix resp.wwwAuthenticate "LSAT " || goHasPrefix resp.wwwAuthenticate "L402 " then
    parseL402Challenge resp.wwwAuthenticate
  else if resp.body ≠ "" then parseL402Body resp.body resp.l402BodyDecode
  else .error .unknownProtocol

/-- Spec scenario 2: an L402 challenge header with macaroon, invoice
and payment hash. -/
def sampleL402Resp : Response402 :=
  ⟨402, "", "", "",
    "L402 macaroon=\"abc\", invoice=\"lnbc100u1pjtest\", payment_hash=\"hash123\"",
    none, none⟩

/-! ## Router engine (router/router.go)

`Fetch` is embedded as a state-transition function.  The router state
is the ledger (`sessionSpend`, `receipts`); the mutex serialises access
in the source and is not needed in the sequential model (the claims
about one `Fetch` are per-call, and `runFetches` models any serialised
history).  The surrounding world of one call — the success of body
buffering and request construction, the two HTTP exchanges, the wall
clock — is a `FetchEnv`.  Alongside its result, the embedded `Fetch`
also returns a trace recording how many times the caller's body reader
was consumed, every outbound request with the body bytes it carried,
whether `provider.Pay` was invoked, and the cost the budget gate saw. -/

/-- `Receipt`. -/
structure Receipt where
  timestamp : Int
  url : String
  protocol : String
  amount : String
  usdCost : ℚ
  description : String
  txID : String
  deriving Repr, DecidableEq

/-- `Config`. -/
structure Config where
  maxPerRequestUSD : ℚ
  maxSessionUSD : ℚ
  dryRun : Bool
  verbose : Bool
  deriving Repr, DecidableEq

/-- The ledger owned by a `Router`. -/
structure RouterState where
  sessionSpend : ℚ
  receipts : List Receipt
  deriving Repr, DecidableEq

/-- The ledger of a freshly constructed Router (`New`). -/
def routerInit : RouterState := ⟨0, []⟩

/-- The data interpolated into the two `ErrBudgetExceeded` messages of
`checkBudget`. -/
inductive BudgetError where
  | perRequest (cost limit : ℚ)
  | session (cost total limit : ℚ)
  deriving Repr, DecidableEq

/-- `Router.checkBudget`. -/
def checkBudget (cfg : Config) (sessionSpend usdCost : ℚ) : Option BudgetError :=
  if cfg.maxPerRequestUSD > 0 ∧ usdCost > cfg.maxPerRequestUSD then
    some (.perRequest usdCost cfg.maxPerRequestUSD)
  else if cfg.maxSessionUSD > 0 ∧ qadd sessionSpend usdCost > cfg.maxSessionUSD then
    some (.session usdCost (qadd sessionSpend usdCost) cfg.maxSessionUSD)
  else none

/-- `Router.recordPayment`. -/
def recordPayment (st : RouterState) (usdCost : ℚ) (receipt : Receipt) : RouterState :=
  ⟨qadd st.sessionSpend usdCost, st.receipts ++ [receipt]⟩

/-- The `PaymentProvider` capability as the Router consumes it.  A
registered provider's `EstimateCost` and `Pay` are arbitrary functions
of the requirement; its own HTTP traffic and credentials are internal
to it. -/
structure ProviderModel where
  protocol : Protocol
  estimateCost : PaymentRequirement → Except String (ℚ × String)
  pay : PaymentRequirement → Except String (String × String)

/-- `extractRecipient`. -/
def extractRecipient (req : PaymentRequirement) : String :=
  match req.x402Requirement with
  | some x =>
    match x.accepts with
    | a :: _ => a.payTo
    | [] => req.l402Hash
  | none => req.l402Hash

/-- The identity of every error `Fetch` can return. -/
inductive FetchError where
  | bufferBody
  | buildRequest
  | requestFailed
  | readResponse
  | httpStatus (code : Nat) (body : String)
  | detect (e : DetectError)
  | noProvider (p : Protocol)
  | estimate (msg : String)
  | budget (e : BudgetError)
  | trust (e : LowTrustError)
  | payment (p : Protocol) (amount : String) (msg : String)
  | buildRetry
  | retryFailed
  | readRetry
  | retryHttpStatus (code : Nat) (body : String)
  deriving Repr, DecidableEq

/-- The surroundings of one `Fetch` call.  `sendResult` is the outcome
of `client.Do` on the initial request (with the response data and the
detector's decode oracles); `retrySendResult` is the outcome of the
retry exchange (status code and body). -/
structure FetchEnv where
  bodyReadError : Bool
  buildReqError : Bool
  sendResult : Except Unit Response402
  readRespError : Bool
  buildRetryError : Bool
  retrySendResult : Except Unit (Nat × String)
  readRetryError : Bool
  now : Int
  deriving Repr, DecidableEq

/-- One outbound HTTP request as `Fetch` builds it: caller headers are
set first, the provider's proof header (retry only) afterwards. -/
structure SentRequest where
  method : String
  url : String
  headers : List (String × String)
  proofHeader : Option (String × String)
  body : Option String
  deriving Repr, DecidableEq

/-- Observation trace of one `Fetch` call. -/
structure FetchTrace where
  bodyReads : Nat
  requests : List SentRequest
  payCalled : Bool
  gateCost : Option ℚ
  deriving Repr, DecidableEq

/-- Number of reads of the caller's body reader: `io.ReadAll` runs
exactly once, and only when the body is non-nil. -/
def bodyReadCount (body : Option String) : Nat :=
  if body.isSome then 1 else 0

/-- The WoT gate inside `Fetch`: consulted only when a checker is set
and the extracted recipient is non-empty. -/
def trustGate (wot : Option WoTChecker) (payReq : PaymentRequirement) (usdCost : ℚ) :
    Option LowTrustError :=
  match wot with
  | none => none
  | some w =>
    let recipientID := extractRecipient payReq
    if recipientID ≠ "" then (w.CheckTrust recipientID usdCost).1 else none

/-- `Router.Fetch`. -/
def Fetch (cfg : Config) (providers : Protocol → Option ProviderModel)
    (wot : Option WoTChecker) (st : RouterState)
    (method url : String) (body : Option String) (headers : List (String × String))
    (env : FetchEnv) :
    RouterState × Except FetchError (String × Option Receipt) × FetchTrace :=
  -- Buffer the request body (one io.ReadAll of the caller's reader);
  -- bodyReader() replays the buffer, preserving the nil distinction.
  if body.isSome ∧ env.bodyReadError then
    (st, .error .bufferBody, ⟨bodyReadCount body, [], false, none⟩)
  else if env.buildReqError then
    (st, .error .buildRequest, ⟨bodyReadCount body, [], false, none⟩)
  else
    match env.sendResult with
    | .error _ =>
      (st, .error .requestFailed,
        ⟨bodyReadCount body, [⟨method, url, headers, none, body⟩], false, none⟩)
    | .ok resp =>
      if env.readRespError then
        (st, .error .readResponse,
          ⟨bodyReadCount body, [⟨method, url, headers, none, body⟩], false, none⟩)
      else if resp.statusCode ≠ 402 then
        if 400 ≤ resp.statusCode then
          (st, .error (.httpStatus resp.statusCode resp.body),
            ⟨bodyReadCount body, [⟨method, url, headers, none, body⟩], false, none⟩)
        else
          (st, .ok (resp.body, none),
            ⟨bodyReadCount body, [⟨method, url, headers, none, body⟩], false, none⟩)
      else
        match DetectProtocol resp with
        | .error e =>
          (st, .error (.detect e),
            ⟨bodyReadCount body, [⟨method, url, headers, none, body⟩], false, none⟩)
        | .ok payReq =>
          match providers payReq.protocol with
          | none =>
            (st, .error (.noProvider payReq.protocol),
              ⟨bodyReadCount body, [⟨method, url, headers, none, body⟩], false, none⟩)
          | some provider =>
            match provider.estimateCost payReq with
            | .error msg =>
              (st, .error (.estimate msg),
                ⟨bodyReadCount body, [⟨method, url, headers, none, body⟩], false, none⟩)
            | .ok pr =>
              match checkBudget cfg st.sessionSpend pr.1 with
              | some be =>
                (st, .error (.budget be),
                  ⟨bodyReadCount body, [⟨method, url, headers, none, body⟩], false, some pr.1⟩)
              | none =>
                match trustGate wot payReq pr.1 with
                | some te =>
                  (st, .error (.trust te),
                    ⟨bodyReadCount body, [⟨method, url, headers, none, body⟩], false, some pr.1⟩)
                | none =>
                  if cfg.dryRun then
                    (st,
                      .ok (resp.body,
                        some ⟨env.now, url, payReq.protocol.toGoString, pr.2, pr.1,
                          "DRY RUN — would pay", ""⟩),
                      ⟨bodyReadCount body, [⟨method, url, headers, none, body⟩], false, some pr.1⟩)
                  else
                    match provider.pay payReq with
                    | .error msg =>
                      (st, .error (.payment payReq.protocol pr.2 msg),
                        ⟨bodyReadCount body, [⟨method, url, headers, none, body⟩], true, some pr.1⟩)
                    | .ok hd =>
                      if env.buildRetryError then
                        (st, .error .buildRetry,
                          ⟨bodyReadCount body, [⟨method, url, headers, none, body⟩], true,
                            some pr.1⟩)
                      else
                        match env.retrySendResult with
                        | .error _ =>
                          (st, .error .retryFailed,
                            ⟨bodyReadCount body,
                              [⟨method, url, headers, none, body⟩,
                                ⟨method, url, headers, some hd, body⟩], true, some pr.1⟩)
                        | .ok rr =>
                          if env.readRetryError then
                            (st, .error .readRetry,
                              ⟨bodyReadCount body,
                                [⟨method, url, headers, none, body⟩,
                                  ⟨method, url, headers, some hd, body⟩], true, some pr.1⟩)
                          else if 400 ≤ rr.1 then
                            (st, .error (.retryHttpStatus rr.1 rr.2),
                              ⟨bodyReadCount body,
                                [⟨method, url, headers, none, body⟩,
                                  ⟨method, url, headers, some hd, body⟩], true, some pr.1⟩)
                          else
                            (recordPayment st pr.1
                                ⟨env.now, url, payReq.protocol.toGoString, pr.2, pr.1,
                                  "Paid " ++ pr.2 ++ " via " ++ payReq.protocol.toGoString, ""⟩,
                              .ok (rr.2,
                                some ⟨env.now, url, payReq.protocol.toGoString, pr.2, pr.1,
                                  "Paid " ++ pr.2 ++ " via " ++ payReq.protocol.toGoString, ""⟩),
                              ⟨bodyReadCount body,
                                [⟨method, url, headers, none, body⟩,
                                  ⟨method, url, headers, some hd, body⟩], true, some pr.1⟩)

/-- One element of a serialised `Fetch` history. -/
structure FetchCall where
  method : String
  url : String
  body : Option String
  headers : List (String × String)
  env : FetchEnv
  deriving Repr, DecidableEq

/-- A serialised sequence of completed `Fetch` calls against one Router. -/
def runFetches (cfg : Config) (providers : Protocol → Option ProviderModel)
    (wot : Option WoTChecker) : RouterState → List FetchCall → RouterState
  | st, [] => st
  | st, c :: cs =>
    runFetches cfg providers wot
      (Fetch cfg providers wot st c.method c.url c.body c.headers c.env).1 cs

/-- Sum of receipt USD costs, accumulated exactly as the source
accumulates `sessionSpend` (left to right, same additions). -/
def receiptTotal (rs : List Receipt) : ℚ :=
  rs.foldl (fun a r => qadd a r.usdCost) 0

/-- The `X402Provider` as registered with the Router: `EstimateCost` is
the embedded scan; the outcome of its one AgentWallet `Pay` exchange is
supplied per instance. -/
def X402ProviderModel (payResult : Except String (String × String)) : ProviderModel :=
  ⟨.x402, fun req => (X402Provider.EstimateCost req).map (fun pr => (pr.1.toRat, pr.2)),
    fun _ => payResult⟩

/-- A provider table with only the x402 provider registered. -/
def x402Only (payResult : Except String (String × String)) :
    Protocol → Option ProviderModel :=
  fun p => if p = .x402 then some (X402ProviderModel payResult) else none

/-- A 402 response whose x402 challenge offers one entry of
-1000000 base units (estimate −1 USD). -/
def negAmountResp : Response402 :=
  ⟨402, "", "someheader", "", "",
    some ⟨[⟨"exact", "eip155:84532", "-1000000", "", "", "", "0xabc", 60, "USDC", ""⟩]⟩,
    none⟩

/-- An environment for one successfully settled call against
`negAmountResp`: both exchanges succeed, the retry returns 200. -/
def negAmountEnv : FetchEnv :=
  ⟨false, false, .ok negAmountResp, false, false, .ok (200, "paid"), false, 1700000000⟩

/-- A 402 response offering one entry of 10000000 base units (10 USD). -/
def tenUSDResp : Response402 :=
  ⟨402, "", "someheader", "", "",
    some ⟨[⟨"exact", "eip155:84532", "10000000", "", "", "", "0xabc", 60, "USDC", ""⟩]⟩,
    none⟩

/-- Environment for a call against `tenUSDResp`. -/
def tenUSDEnv : FetchEnv :=
  ⟨false, false, .ok tenUSDResp, false, false, .ok (200, "paid"), false, 1700000000⟩

/-- Environment identical to `tenUSDEnv` but whose provider pay fails
is modelled through the provider table, not the env. -/
def sampleHeaders : List (String × String) := []

end Agentpay

namespace Agentpay

/-! ## JSON values and Go encoding/json (providers, part of package)

`encoding/json` appears in the sources in two roles relevant to the
claims: `json.Marshal` of `map[string]interface{}` trees (CDP typed
data, the x402 payment envelope, `canonicalizeJSON`) and
`json.Unmarshal` into `interface{}` (in `canonicalizeJSON`).  Both are
embedded over an explicit JSON value type.

Numbers: Go decodes a JSON number through `strconv.ParseFloat(lit,
64)` — failing the whole `Unmarshal` on its range error, which the
parser below mirrors with `numInRange`, the same cut-offs in integer
arithmetic — and re-encodes the `float64` in Go's shortest
round-tripping decimal form.  The model keeps the in-range numeric
literal itself.  Because Go's float64 formatting/parsing
round-trips exactly, a literal produced by one marshal pass is decoded
and re-encoded unchanged by the next — which the literal model makes
explicit.  Literals Go would normalise on the first pass (such as
`1.50` to `1.5`) are kept verbatim; no claim depends on this.

Objects: Go's decoded `map[string]interface{}` loses entry order and
keeps the last value of a duplicated key, and `json.Marshal` of a map
emits keys in sorted byte order.  The model keeps parsed entries in
textual order and applies last-wins deduplication plus byte-order
sorting in `canonicalize`, which composes to the same strings; the
fixed-key objects built by `CDPProvider.Pay` are written directly in
the sorted order Go's map marshalling produces. -/

/-- The opening-brace, closing-brace, double-quote and backslash
characters (written via code points). -/
def lbraceChar : Char := Char.ofNat 123

def rbraceChar : Char := Char.ofNat 125

def quoteChar : Char := Char.ofNat 34

def backslashChar : Char := Char.ofNat 92

/-- A decoded JSON value. -/
inductive Json where
  | null
  | bool (b : Bool)
  | num (lit : String)
  | str (s : String)
  | arr (items : List Json)
  | obj (entries : List (String × Json))

/-- Lowercase hexadecimal digit. -/
def hexDigitChar (n : Nat) : Char :=
  if n < 10 then Char.ofNat (48 + n) else Char.ofNat (87 + n)

/-- Go `encoding/json` string escaping: quote, backslash, the three
C-style control escapes, `\u00XX` for other control characters,
`<`/`>`/`&` for HTML characters (Marshal escapes HTML by
default), and ` `/` `. -/
def escChar (c : Char) : List Char :=
  if c = quoteChar then [backslashChar, quoteChar]
  else if c = backslashChar then [backslashChar, backslashChar]
  else if c = '\n' then [backslashChar, 'n']
  else if c = '\r' then [backslashChar, 'r']
  else if c = '\t' then [backslashChar, 't']
  else if c.toNat < 32 ∨ c = '<' ∨ c = '>' ∨ c = '&' ∨
      c.toNat = 8232 ∨ c.toNat = 8233 then
    [backslashChar, 'u', hexDigitChar (c.toNat / 4096 % 16), hexDigitChar (c.toNat / 256 % 16),
      hexDigitChar (c.toNat / 16 % 16), hexDigitChar (c.toNat % 16)]
  else [c]

def escString (s : String) : List Char :=
  s.data.foldr (fun c acc => escChar c ++ acc) []

mutual

/-- `json.Marshal` of a decoded value (object entries in stored order;
see the section comment on key order). -/
def marshalVal : Json → List Char
  | .num lit => lit.data
  | .str s => quoteChar :: (escString s ++ [quoteChar])
  | .null => ['n', 'u', 'l', 'l']
  | .arr [] => ['[', ']']
  | .bool true => ['t', 'r', 'u', 'e']
  | .obj [] => [lbraceChar, rbraceChar]
  | .bool false => ['f', 'a', 'l', 's', 'e']
  | .arr (x :: xs) => '[' :: (marshalVal x ++ marshalArrTail xs)
  | .obj (e :: es) => lbraceChar :: (marshalEntry e ++ marshalObjTail es)

def marshalEntry : String × Json → List Char
  | (k, v) => quoteChar :: (escString k ++ [quoteChar, ':']) ++ marshalVal v

def marshalArrTail : List Json → List Char
  | [] => [']']
  | x :: xs => ',' :: (marshalVal x ++ marshalArrTail xs)

def marshalObjTail : List (String × Json) → List Char
  | [] => [rbraceChar]
  | e :: es => ',' :: (marshalEntry e ++ marshalObjTail es)

end

/-- JSON whitespace (the set Go's scanner skips). -/
def isJsonWs (c : Char) : Bool :=
  c = ' ' ∨ c = '\t' ∨ c = '\n' ∨ c = '\r'

def skipWs : List Char → List Char
  | [] => []
  | c :: cs => if isJsonWs c then skipWs cs else c :: cs

/-- Body of a JSON string literal after the opening quote: decoded
characters plus the rest after the closing quote.  Escapes follow
`encoding/json`: the seven C escapes and `\uXXXX`, with UTF-16
surrogate pairs combined and lone surrogates replaced by U+FFFD. -/
def parseStrBody : Nat → List Char → Option (List Char × List Char)
  | 0, _ => none
  | _, [] => none
  | fuel + 1, c :: cs =>
    if c = quoteChar then some ([], cs)
    else if c = backslashChar then
      match cs with
      | [] => none
      | e :: cs2 =>
        if e = quoteChar then (parseStrBody fuel cs2).map (fun p => (quoteChar :: p.1, p.2))
        else if e = backslashChar then
          (parseStrBody fuel cs2).map (fun p => (backslashChar :: p.1, p.2))
        else if e = '/' then (parseStrBody fuel cs2).map (fun p => ('/' :: p.1, p.2))
        else if e = 'b' then (parseStrBody fuel cs2).map (fun p => (Char.ofNat 8 :: p.1, p.2))
        else if e = 'f' then (parseStrBody fuel cs2).map (fun p => (Char.ofNat 12 :: p.1, p.2))
        else if e = 'n' then (parseStrBody fuel cs2).map (fun p => ('\n' :: p.1, p.2))
        else if e = 'r' then (parseStrBody fuel cs2).map (fun p => ('\r' :: p.1, p.2))
        else if e = 't' then (parseStrBody fuel cs2).map (fun p => ('\t' :: p.1, p.2))
        else if e = 'u' then
          match cs2 with
          | h1 :: h2 :: h3 :: h4 :: cs3 =>
            match hexVal h1, hexVal h2, hexVal h3, hexVal h4 with
            | some a, some b, some c2, some d =>
              let n := a * 4096 + b * 256 + c2 * 16 + d
              if 55296 ≤ n ∧ n ≤ 56319 then
                match cs3 with
                | b1 :: u2 :: g1 :: g2 :: g3 :: g4 :: cs4 =>
                  if b1 = backslashChar ∧ u2 = 'u' then
                    match hexVal g1, hexVal g2, hexVal g3, hexVal g4 with
                    | some e1, some e2, some e3, some e4 =>
                      let m := e1 * 4096 + e2 * 256 + e3 * 16 + e4
                      if 56320 ≤ m ∧ m ≤ 57343 then
                        (parseStrBody fuel cs4).map (fun p =>
                          (Char.ofNat (65536 + (n - 55296) * 1024 + (m - 56320)) :: p.1, p.2))
                      else
                        (parseStrBody fuel cs3).map (fun p => (Char.ofNat 65533 :: p.1, p.2))
                    | _, _, _, _ =>
                      (parseStrBody fuel cs3).map (fun p => (Char.ofNat 65533 :: p.1, p.2))
                  else (parseStrBody fuel cs3).map (fun p => (Char.ofNat 65533 :: p.1, p.2))
                | _ => (parseStrBody fuel cs3).map (fun p => (Char.ofNat 65533 :: p.1, p.2))
              else if 56320 ≤ n ∧ n ≤ 57343 then
                (parseStrBody fuel cs3).map (fun p => (Char.ofNat 65533 :: p.1, p.2))
              else (parseStrBody fuel cs3).map (fun p => (Char.ofNat n :: p.1, p.2))
            | _, _, _, _ => none
          | _ => none
        else none
    else if c.toNat < 32 then none
    else (parseStrBody fuel cs).map (fun p => (c :: p.1, p.2))

/-- Characters a number token may contain (greedy scan). -/
def isNumChar (c : Char) : Bool :=
  c.isDigit ∨ c = '-' ∨ c = '+' ∨ c = '.' ∨ c = 'e' ∨ c = 'E'

def digitsTail (cs : List Char) : List Char := cs.dropWhile Char.isDigit

/-- Exponent-or-end of the JSON number grammar. -/
def numAfterFrac : List Char → Bool
  | [] => true
  | e :: t =>
    if e = 'e' ∨ e = 'E' then
      let t2 := match t with
        | c :: t3 => if c = '+' ∨ c = '-' then t3 else c :: t3
        | [] => []
      match t2 with
      | c :: _ => c.isDigit ∧ digitsTail t2 = []
      | [] => false
    else false

/-- Optional fraction then exponent-or-end. -/
def numAfterInt : List Char → Bool
  | '.' :: t =>
    match t with
    | c :: _ => if c.isDigit then numAfterFrac (digitsTail t) else false
    | [] => false
  | cs => numAfterFrac cs

/-- The JSON number grammar (`-? int frac? exp?`, no leading zeros). -/
def numLitOK (cs0 : List Char) : Bool :=
  let cs1 := match cs0 with
    | '-' :: t => t
    | _ => cs0
  match cs1 with
  | '0' :: r1 => numAfterInt r1
  | c :: r1 => if c.isDigit then numAfterInt (digitsTail r1) else false
  | [] => false

/-- The integer mantissa and decimal exponent a number literal denotes
(`m * 10 ^ e`; the sign is irrelevant to the range check). -/
def numParts (cs0 : List Char) : Nat × Int :=
  let cs1 := match cs0 with
    | '-' :: t => t
    | _ => cs0
  let p1 := readDigits cs1
  let p2 : List Nat × List Char :=
    match p1.2 with
    | '.' :: t => readDigits t
    | _ => ([], p1.2)
  let ex : Int :=
    match p2.2 with
    | e :: t =>
      if e = 'e' ∨ e = 'E' then
        match t with
        | '+' :: t2 => (natOfDigits (readDigits t2).1 : Int)
        | '-' :: t2 => -(natOfDigits (readDigits t2).1 : Int)
        | _ => (natOfDigits (readDigits t).1 : Int)
      else 0
    | [] => 0
  (natOfDigits (p1.1 ++ p2.1), ex - p2.1.length)

/-- Whether `strconv.ParseFloat(lit, 64)` — which `encoding/json` runs
on every number token, failing the whole `Unmarshal` on its range
error — accepts the literal's magnitude: within the same two cut-offs
the `ParseFloat` model uses, decided in integer arithmetic. -/
def numInRange (cs : List Char) : Bool :=
  let p := numParts cs
  if p.1 = 0 then true
  else
    (if 0 ≤ p.2 then p.1 * 10 ^ p.2.toNat ≤ maxFloatN
     else p.1 ≤ maxFloatN * 10 ^ (-p.2).toNat) &&
    (if 0 ≤ p.2 then true
     else 10 ^ (-p.2).toNat ≤ p.1 * minFloatDenN)

mutual

/-- One JSON value (fuel-indexed recursive descent; the fuel only
bounds nesting and sibling chains, `parseJson` supplies enough). -/
def parseVal : Nat → List Char → Option (Json × List Char)
  | 0, _ => none
  | fuel + 1, cs =>
    match skipWs cs with
    | [] => none
    | c :: cs2 =>
      if c = quoteChar then (parseStrBody fuel cs2).map (fun p => (.str p.1.asString, p.2))
      else if c = '[' then
        match skipWs cs2 with
        | ']' :: cs3 => some (.arr [], cs3)
        | cs3 => (parseArrItems fuel cs3).map (fun p => (.arr p.1, p.2))
      else if c = lbraceChar then
        match skipWs cs2 with
        | r :: cs3 =>
          if r = rbraceChar then some (.obj [], cs3)
          else (parseObjItems fuel (r :: cs3)).map (fun p => (.obj p.1, p.2))
        | [] => none
      else if c = 't' then
        match cs2 with
        | 'r' :: 'u' :: 'e' :: cs3 => some (.bool true, cs3)
        | _ => none
      else if c = 'f' then
        match cs2 with
        | 'a' :: 'l' :: 's' :: 'e' :: cs3 => some (.bool false, cs3)
        | _ => none
      else if c = 'n' then
        match cs2 with
        | 'u' :: 'l' :: 'l' :: cs3 => some (.null, cs3)
        | _ => none
      else
        let tok := (c :: cs2).takeWhile isNumChar
        if tok ≠ [] ∧ numLitOK tok ∧ numInRange tok then
          some (.num tok.asString, (c :: cs2).dropWhile isNumChar)
        else none

/-- Array items after `[` (at least one). -/
def parseArrItems : Nat → List Char → Option (List Json × List Char)
  | 0, _ => none
  | fuel + 1, cs =>
    match parseVal fuel cs with
    | none => none
    | some (v, rest) =>
      match skipWs rest with
      | ',' :: rest2 =>
        match parseArrItems fuel rest2 with
        | none => none
        | some (vs, rest3) => some (v :: vs, rest3)
      | ']' :: rest2 => some ([v], rest2)
      | _ => none

/-- Object entries after `{` (at least one). -/
def parseObjItems : Nat → List Char → Option (List (String × Json) × List Char)
  | 0, _ => none
  | fuel + 1, cs =>
    match skipWs cs with
    | c :: cs2 =>
      if c = quoteChar then
        match parseStrBody (cs2.length + 1) cs2 with
        | none => none
        | some (k, rest) =>
          match skipWs rest with
          | ':' :: rest2 =>
            match parseVal fuel rest2 with
            | none => none
            | some (v, rest3) =>
              match skipWs rest3 with
              | ',' :: rest4 =>
                match parseObjItems fuel rest4 with
                | none => none
                | some (es, rest5) => some ((k.asString, v) :: es, rest5)
              | r :: rest4 => if r = rbraceChar then some ([(k.asString, v)], rest4) else none
              | [] => none
          | _ => none
      else none
    | [] => none

end

/-- `json.Unmarshal` into `interface{}`: the whole input must be one
value with only whitespace after it. -/
def parseJson (s : String) : Option Json :=
  match parseVal (2 * s.data.length + 2) s.data with
  | none => none
  | some (v, rest) => if skipWs rest = [] then some v else none

end Agentpay

namespace Agentpay

/-! ## CDPProvider.Pay (providers package)

`Pay` selects an EVM accept option, builds the EIP-712
TransferWithAuthorization typed data, has the CDP API sign it, and
encodes the x402 payment envelope.  The two I/O steps supplied as
oracles: `randBytes` is the outcome of `rand.Read` inside
`generateNonce` (`none` = failure, triggering the timestamp fallback),
and `sign` is `cdpRequest` on the `/sign/typed-data` path combined
with the decode of the `{signature}` response (its input is the exact
JSON request body, so the theorems pin what is signed). -/

/-- UTF-8 encoding of one scalar value. -/
def utf8Bytes (c : Char) : List Nat :=
  let n := c.toNat
  if n < 128 then [n]
  else if n < 2048 then [192 + n / 64, 128 + n % 64]
  else if n < 65536 then [224 + n / 4096, 128 + n / 64 % 64, 128 + n % 64]
  else [240 + n / 262144, 128 + n / 4096 % 64, 128 + n / 64 % 64, 128 + n % 64]

/-- Bytes of a string (Go strings are UTF-8). -/
def utf8Encode (cs : List Char) : List Nat :=
  cs.foldr (fun c acc => utf8Bytes c ++ acc) []

def base64Alphabet : List Char :=
  "ABCDEFGHIJKLMNOPQRSTUVWXYZabcdefghijklmnopqrstuvwxyz0123456789+/".data

def b64Char (n : Nat) : Char := base64Alphabet.getD n 'A'

/-- `base64.StdEncoding.EncodeToString` (standard alphabet, padded). -/
def base64Encode : List Nat → List Char
  | [] => []
  | [a] => [b64Char (a / 4 % 64), b64Char (a % 4 * 16), '=', '=']
  | [a, b] => [b64Char (a / 4 % 64), b64Char (a % 4 * 16 + b / 16 % 16), b64Char (b % 16 * 4), '=']
  | a :: b :: c :: rest =>
    b64Char (a / 4 % 64) :: b64Char (a % 4 * 16 + b / 16 % 16) ::
      b64Char (b % 16 * 4 + c / 64 % 4) :: b64Char (c % 64) :: base64Encode rest

/-- `%x` of one byte: two lowercase hex digits. -/
def byteHex (b : Nat) : List Char := [hexDigitChar (b / 16 % 16), hexDigitChar (b % 16)]

/-- `fmt.Sprintf("%x", bytes)`. -/
def hexOfBytes (bs : List Nat) : List Char :=
  bs.foldr (fun b acc => byteHex b ++ acc) []

/-- Lowercase hex digits of `n` (no leading zeros; `"0"` for zero),
with enough fuel for any `int64`. -/
def natHexFuel : Nat → Nat → List Char
  | 0, _ => []
  | fuel + 1, n => if n = 0 then [] else natHexFuel fuel (n / 16) ++ [hexDigitChar (n % 16)]

def natHex (n : Nat) : List Char :=
  if n = 0 then ['0'] else natHexFuel 64 n

/-- `fmt.Sprintf("%064x", n)` for a non-negative `int64`. -/
def pad64Hex (n : Int) : List Char :=
  List.replicate (64 - (natHex n.toNat).length) '0' ++ natHex n.toNat

/-- `generateNonce`: 32 random bytes as `0x` + hex; on RNG failure a
`%064x`-padded `UnixNano` timestamp. -/
def generateNonce (randBytes : Option (List Nat)) (nowUnixNano : Int) : String :=
  match randBytes with
  | some b => ("0x".data ++ hexOfBytes b).asString
  | none => ("0x".data ++ pad64Hex nowUnixNano).asString

/-- `0x` followed by exactly 64 lowercase hex characters. -/
def isLowerHexDigit (c : Char) : Bool :=
  c.isDigit ∨ ('a' ≤ c ∧ c ≤ 'f')

def isNonceFormat (s : String) : Bool :=
  match s.data with
  | '0' :: 'x' :: rest => rest.length = 64 ∧ rest.all isLowerHexDigit
  | _ => false

/-- `strconv.ParseInt(s, 10, 64)` (digit separators not modelled). -/
def goParseInt64 (s : String) : Option Int :=
  let p : Bool × List Char :=
    match s.data with
    | '+' :: t => (false, t)
    | '-' :: t => (true, t)
    | t => (false, t)
  match p.2 with
  | [] => none
  | ds =>
    if ds.all Char.isDigit then
      let n := natOfDigits (ds.map (fun c => c.toNat - 48))
      let v : Int := if p.1 then -(n : Int) else (n : Int)
      if v < -9223372036854775808 ∨ 9223372036854775807 < v then none else some v
    else none

/-- Chain id extraction in `Pay`: the integer after the colon of the
network string, defaulting to 84532 (Base Sepolia) when the string has
no colon or the integer does not parse. -/
def parseChainId (network : String) : Int :=
  match splitAtFirst ':' network.data with
  | some p =>
    match goParseInt64 p.2.asString with
    | some id => id
    | none => 84532
  | none => 84532

/-- `CDPProvider` (HTTP client and base URL folded into the oracle). -/
structure CDPProvider where
  apiKeyID : String
  apiKeySecret : String
  walletSecret : String
  address : String
  deriving Repr, DecidableEq

/-- Oracle surroundings of one `Pay` call. -/
structure CDPPayEnv where
  randBytes : Option (List Nat)
  nowUnixNano : Int
  nowUnix : Int
  sign : String → Except String String

/-- A `{"name": n, "type": t}` field descriptor. -/
def fieldObj (n t : String) : Json :=
  .obj [("name", .str n), ("type", .str t)]

/-- The EIP-712 typed-data object `Pay` marshals and submits for
signing.  Object keys are written in sorted byte order — the order
`json.Marshal` emits for Go maps; the two type-descriptor arrays are
Go slices and keep their source order. -/
def typedDataJson (address : String) (a : X402Accept) (chainID : Int)
    (nonce validAfter validBefore : String) : Json :=
  .obj [
    ("domain", .obj [
      ("chainId", .num (toString chainID)),
      ("name", .str "USD Coin"),
      ("verifyingContract", .str a.asset),
      ("version", .str "2")]),
    ("message", .obj [
      ("from", .str address),
      ("nonce", .str nonce),
      ("to", .str a.payTo),
      ("validAfter", .str validAfter),
      ("validBefore", .str validBefore),
      ("value", .str a.maxAmountRequired)]),
    ("primaryType", .str "TransferWithAuthorization"),
    ("types", .obj [
      ("EIP712Domain", .arr [
        fieldObj "name" "string",
        fieldObj "version" "string",
        fieldObj "chainId" "uint256",
        fieldObj "verifyingContract" "address"]),
      ("TransferWithAuthorization", .arr [
        fieldObj "from" "address",
        fieldObj "to" "address",
        fieldObj "value" "uint256",
        fieldObj "validAfter" "uint256",
        fieldObj "validBefore" "uint256",
        fieldObj "nonce" "bytes32"])])]

/-- The x402 payment envelope `Pay` base64-encodes (keys again in the
sorted order Go map marshalling emits). -/
def paymentEnvelopeJson (sig address : String) (a : X402Accept)
    (nonce validAfter validBefore : String) : Json :=
  .obj [
    ("network", .str a.network),
    ("payload", .obj [
      ("from", .str address),
      ("nonce", .str nonce),
      ("signature", .str sig),
      ("to", .str a.payTo),
      ("validAfter", .str validAfter),
      ("validBefore", .str validBefore),
      ("value", .str a.maxAmountRequired)]),
    ("scheme", .str a.scheme),
    ("x402Version", .num "1")]

/-- `CDPProvider.Pay`. -/
def CDPProvider.Pay (p : CDPProvider) (req : PaymentRequirement) (env : CDPPayEnv) :
    Except String (String × String) :=
  if p.address = "" then .error "CDP provider not initialized — call Init first"
  else
    match req.x402Requirement with
    | none => .error "no x402 payment options"
    | some x =>
      if x.accepts.isEmpty then .error "no x402 payment options"
      else
        -- Pick the first EVM option
        match x.accepts.find? (fun o => goHasPrefix o.network "eip155:") with
        | none => .error "no EVM payment option found"
        | some accept =>
          match env.sign (marshalVal (typedDataJson p.address accept
              (parseChainId accept.network)
              (generateNonce env.randBytes env.nowUnixNano) "0"
              (toString (env.nowUnix + 600)))).asString with
          | .error e => .error ("CDP sign: " ++ e)
          | .ok sig =>
            .ok ("Payment",
              (base64Encode (utf8Encode (marshalVal (paymentEnvelopeJson sig p.address accept
                (generateNonce env.randBytes env.nowUnixNano) "0"
                (toString (env.nowUnix + 600)))))).asString)

/-- A CDP provider after a successful `Init`. -/
def sampleCDP : CDPProvider :=
  ⟨"organizations/org/apiKeys/key", "secret", "walletsecret", "0xCDPWallet"⟩

/-- A fixed `Pay` environment: the RNG produced bytes 0,1,...,31, the
signing service returns a fixed signature. -/
def sampleCDPEnv : CDPPayEnv :=
  ⟨some (List.range 32), 1700000000000000000, 1700000000,
    fun _ => .ok "0xsigdata"⟩

end Agentpay

namespace Agentpay

/-! ## canonicalizeJSON (providers package)

`canonicalizeJSON` unmarshals into `interface{}`, rebuilds the value with
`canonicalize`, and re-marshals.  In Go the object reordering happens in
two places: `json.Unmarshal` builds a `map[string]interface{}` (entry
order lost, last value of a duplicated key kept) and `json.Marshal`
emits map keys in sorted byte order; `canonicalize` itself only rebuilds
maps and slices.  The model's `parseJson` keeps entries in textual
order, so the map semantics appear here: `dedupLast` is the last-wins
key deduplication of map construction and the `insertionSort` is the
sorted-key emission (byte order on UTF-8 strings equals code-point
order, which `listLE` compares). -/

/-- Code-point (equivalently UTF-8 byte) lexicographic `≤` on strings,
the order `sort.Strings` and `json.Marshal` use for map keys. -/
def listLE : List Char → List Char → Bool
  | [], _ => true
  | _ :: _, [] => false
  | a :: as, b :: bs =>
    if a.toNat < b.toNat then true
    else if b.toNat < a.toNat then false
    else listLE as bs

def goStrLE (a b : String) : Bool := listLE a.data b.data

/-- Key order on object entries (compares keys only). -/
def entryLE (a b : String × Json) : Prop := goStrLE a.1 b.1 = true

instance : DecidableRel entryLE := fun a b =>
  inferInstanceAs (Decidable (goStrLE a.1 b.1 = true))

/-- Strict key order (used to state uniqueness of the sorted form). -/
def entryLT (a b : String × Json) : Prop := entryLE a b ∧ a.1 ≠ b.1

/-- Last-wins deduplication of object entries by key: the surviving
value for each key is the value of its last occurrence, as when
`json.Unmarshal` assigns duplicate keys into one map. -/
def dedupLast : List (String × Json) → List (String × Json)
  | [] => []
  | e :: rest =>
    if rest.any (fun x => x.1 = e.1) then dedupLast rest
    else e :: dedupLast rest

mutual

/-- The `canonicalize` of the source: scalars unchanged, arrays
rebuilt elementwise, objects rebuilt with map-construction
deduplication and sorted-key emission (see the section comment). -/
def canonicalize : Json → Json
  | .null => .null
  | .bool b => .bool b
  | .num l => .num l
  | .str s => .str s
  | .arr xs => .arr (canonList xs)
  | .obj es => .obj (List.insertionSort entryLE (dedupLast (canonEntries es)))

def canonList : List Json → List Json
  | [] => []
  | x :: xs => canonicalize x :: canonList xs

def canonEntries : List (String × Json) → List (String × Json)
  | [] => []
  | (k, v) :: es => (k, canonicalize v) :: canonEntries es

end

/-- `canonicalizeJSON`: parse, canonicalize, re-marshal; fall back to
the input bytes when the input is not valid JSON. -/
def canonicalizeJSON (data : String) : String :=
  match parseJson data with
  | none => data
  | some v => (marshalVal (canonicalize v)).asString

/-- Marshalled-form well-formedness: number literals produced by the
marshaller fit the number grammar (all other constructors carry no
constraint).  Every parser output satisfies it. -/
inductive WF : Json → Prop
  | null : WF .null
  | bool (b : Bool) : WF (.bool b)
  | num (lit : String) (h1 : lit.data.all isNumChar = true)
      (h2 : numLitOK lit.data = true) (h3 : numInRange lit.data = true) : WF (.num lit)
  | str (s : String) : WF (.str s)
  | arr (xs : List Json) (h : ∀ x ∈ xs, WF x) : WF (.arr xs)
  | obj (es : List (String × Json)) (h : ∀ e ∈ es, WF e.2) : WF (.obj es)

/-- Two values equal up to object-key reordering: arrays keep order and
length, objects have duplicate-free key sets that are permutations of
each other with pointwise related values. -/
inductive KeyPerm : Json → Json → Prop
  | null : KeyPerm .null .null
  | bool (b : Bool) : KeyPerm (.bool b) (.bool b)
  | num (l : String) : KeyPerm (.num l) (.num l)
  | str (s : String) : KeyPerm (.str s) (.str s)
  | arrNil : KeyPerm (.arr []) (.arr [])
  | arrCons {x y : Json} {xs ys : List Json} (h1 : KeyPerm x y)
      (h2 : KeyPerm (.arr xs) (.arr ys)) : KeyPerm (.arr (x :: xs)) (.arr (y :: ys))
  | obj {es fs : List (String × Json)}
      (hnd1 : (es.map Prod.fst).Nodup) (hnd2 : (fs.map Prod.fst).Nodup)
      (hperm : (es.map Prod.fst).Perm (fs.map Prod.fst))
      (hpt : ∀ k v w, (k, v) ∈ es → (k, w) ∈ fs → KeyPerm v w) :
      KeyPerm (.obj es) (.obj fs)

/-- Member-wise recursion over `Json` (the nested-inductive shape makes
the default principle unusable for per-element facts). -/
def jsonMemRec (motive : Json → Prop) (h0 : motive .null)
    (h1 : ∀ b, motive (.bool b)) (h2 : ∀ l, motive (.num l))
    (h3 : ∀ s, motive (.str s))
    (h4 : ∀ xs, (∀ x ∈ xs, motive x) → motive (.arr xs))
    (h5 : ∀ es, (∀ e ∈ es, motive e.2) → motive (.obj es)) : ∀ v, motive v
  | .null => h0
  | .bool b => h1 b
  | .num l => h2 l
  | .str s => h3 s
  | .arr xs => h4 xs (fun x hx => jsonMemRec motive h0 h1 h2 h3 h4 h5 x)
  | .obj es => h5 es (fun e he => jsonMemRec motive h0 h1 h2 h3 h4 h5 e.2)
termination_by v => sizeOf v
decreasing_by
  · have := List.sizeOf_lt_of_mem hx
    simp only [Json.arr.sizeOf_spec]
    omega
  · have hs := List.sizeOf_lt_of_mem he
    obtain ⟨a, b⟩ := e
    simp only [Json.obj.sizeOf_spec, Prod.mk.sizeOf_spec] at hs ⊢
    omega

/-- Whether a character list may directly follow a number token
(nothing, or a character the greedy number scan stops at). -/
def numBoundary : List Char → Prop
  | [] => True
  | c :: _ => isNumChar c = false

end Agentpay

namespace Agentpay

/-! # Theorems -/

theorem goFloatLt_irrefl (x : GoFloat) : goFloatLt x x = false := by
  cases x <;> simp [goFloatLt]

theorem goFloatLt_asymm (a b : GoFloat) (h : goFloatLt a b = true) :
    goFloatLt b a = false := by
  cases a <;> cases b <;> simp [goFloatLt] at h ⊢ <;> linarith

theorem goFloatLt_trans (a b c : GoFloat) (h1 : goFloatLt a b = true)
    (h2 : goFloatLt b c = true) : goFloatLt a c = true := by
  cases a <;> cases b <;> cases c <;> simp [goFloatLt] at h1 h2 ⊢ <;> linarith

theorem goFloatLt_resolve (x b u : GoFloat) (h1 : goFloatLt x b = false)
    (h2 : goFloatLt u b = true) : x = .nan ∨ goFloatLt u x = true := by
  cases x <;> cases b <;> cases u <;>
    simp [goFloatLt] at h1 h2 ⊢ <;> linarith

theorem goFloatLt_posInf_of_ltMax (u : GoFloat)
    (h : goFloatLt u mathMaxFloat64 = true) : goFloatLt u GoFloat.posInf = true := by
  cases u <;> simp [goFloatLt, mathMaxFloat64] at h ⊢

theorem rangeCheck_bound (v q : ℚ) (h : rangeCheck v = some q) :
    ¬ maxFloatQ < qabs q := by
  simp only [rangeCheck] at h
  split at h
  · cases h
  · split at h
    · cases h
    · next h1 h2 =>
      injection h with h
      subst h
      exact h1

theorem parseFloatCore_bound (cs : List Char) (q : ℚ)
    (h : parseFloatCore cs = some q) : ¬ maxFloatQ < qabs q := by
  simp only [parseFloatCore] at h
  split at h
  · exact absurd h (by simp)
  · split at h
    · exact absurd h (by simp)
    · exact rangeCheck_bound _ _ h

theorem parseHexFloat_bound (neg : Bool) (cs : List Char) (q : ℚ)
    (h : parseHexFloat neg cs = some q) : ¬ maxFloatQ < qabs q := by
  simp only [parseHexFloat] at h
  split at h
  · exact absurd h (by simp)
  · split at h
    · exact absurd h (by simp)
    · split at h
      · split at h
        · exact absurd h (by simp)
        · exact rangeCheck_bound _ _ h
      · exact absurd h (by simp)

theorem maxFloat_div_million : maxFloatQ < maxFloat64Q * 1000000 := by
  have hN : maxFloatN < maxFloat64N * 1000000 := by decide
  rw [maxFloatQ, maxFloat64Q]
  calc (maxFloatN : ℚ) < ((maxFloat64N * 1000000 : ℕ) : ℚ) := by exact_mod_cast hN
  _ = (maxFloat64N : ℚ) * 1000000 := by push_cast; ring

theorem qdiv_million_lt_max (q : ℚ) (h : ¬ maxFloatQ < qabs q) :
    qdiv q 1000000 < maxFloat64Q := by
  rw [qdiv_eq]
  rw [qabs_eq] at h
  have h1 : q ≤ maxFloatQ := le_trans (le_abs_self q) (not_lt.1 h)
  have h2 := maxFloat_div_million
  rw [div_lt_iff (by norm_num : (0 : ℚ) < 1000000)]
  linarith

theorem parseFloat_finite_ltMax (s : String) (q : ℚ)
    (h : parseFloat? s = some (.finite q)) :
    goFloatLt (goDivMillion (.finite q)) mathMaxFloat64 = true := by
  have hb : ¬ maxFloatQ < qabs q := by
    simp only [parseFloat?] at h
    split at h
    · next v hv =>
      injection h with h
      subst h
      simp only [parseFloatSpecial] at hv
      split at hv
      · split at hv <;> exact absurd (Option.some.injEq .. ▸ hv) (by simp)
      · split at hv
        · exact absurd (Option.some.injEq .. ▸ hv) (by simp)
        · exact absurd hv (by simp)
    · split at h
      · exact absurd h (by simp)
      · split at h
        · split at h
          · obtain ⟨q2, hq2, he⟩ := Option.map_eq_some'.1 h
            obtain rfl : q2 = q := by injection he
            exact parseHexFloat_bound _ _ _ hq2
          · obtain ⟨q2, hq2, he⟩ := Option.map_eq_some'.1 h
            obtain rfl : q2 = q := by injection he
            exact parseFloatCore_bound _ _ hq2
        · obtain ⟨q2, hq2, he⟩ := Option.map_eq_some'.1 h
          obtain rfl : q2 = q := by injection he
          exact parseFloatCore_bound _ _ hq2
  simp only [goDivMillion, goFloatLt, mathMaxFloat64, decide_eq_true_eq]
  exact qdiv_million_lt_max q hb

theorem parsed_notBelowMax_special (s : String) (v : GoFloat)
    (hp : parseFloat? s = some v)
    (h : goFloatLt (goDivMillion v) mathMaxFloat64 = false) :
    goDivMillion v = .nan ∨ goDivMillion v = .posInf := by
  cases v with
  | nan => exact Or.inl rfl
  | posInf => exact Or.inr rfl
  | negInf => exact absurd h (by simp [goDivMillion, goFloatLt, mathMaxFloat64])
  | finite q =>
    rw [parseFloat_finite_ltMax s q hp] at h
    cases h

theorem below_of_notBelowMax (v usd : GoFloat)
    (hv : goDivMillion v = .nan ∨ goDivMillion v = .posInf)
    (husd : goFloatLt usd mathMaxFloat64 = true) :
    goDivMillion v = .nan ∨ goFloatLt usd (goDivMillion v) = true := by
  rcases hv with hv | hv
  · exact Or.inl hv
  · rw [hv]
    exact Or.inr (goFloatLt_posInf_of_ltMax usd husd)

theorem cheapestScan_eq_none (os : List X402Accept) (acc : Option (GoFloat × X402Accept)) :
    cheapestScan os acc = none ↔
      (acc = none ∧ ∀ o ∈ os, ∀ v, parseFloat? o.maxAmountRequired = some v →
        goFloatLt (goDivMillion v) mathMaxFloat64 = false) := by
  induction os generalizing acc with
  | nil => simp [cheapestScan]
  | cons o os ih =>
    rcases hp : parseFloat? o.maxAmountRequired with _ | amount <;> rcases acc with _ | pr <;>
      simp only [cheapestScan, hp]
    · rw [ih]
      simp [hp, List.forall_mem_cons]
    · rw [ih]
      simp [hp, List.forall_mem_cons]
    · split
      · next hlt =>
        rw [ih]
        simp only [List.forall_mem_cons, hp]
        simp [hlt]
      · next hlt =>
        rw [ih]
        simp only [List.forall_mem_cons, hp]
        have : goFloatLt (goDivMillion amount) mathMaxFloat64 = false :=
          Bool.eq_false_iff.2 hlt
        simp [this]
    · split <;> (rw [ih]; simp)

theorem cheapestScan_eq_some (os : List X402Accept) (acc : Option (GoFloat × X402Accept))
    (usd : GoFloat) (a : X402Accept)
    (hinv : ∀ b, acc = some b → goFloatLt b.1 mathMaxFloat64 = true)
    (h : cheapestScan os acc = some (usd, a)) :
    (acc = some (usd, a) ∧
      ∀ o ∈ os, ∀ v, parseFloat? o.maxAmountRequired = some v →
        goFloatLt (goDivMillion v) usd = false)
    ∨ (∃ l r m, os = l ++ a :: r ∧ parseFloat? a.maxAmountRequired = some m ∧
        usd = goDivMillion m ∧ goFloatLt usd mathMaxFloat64 = true ∧
        (∀ o ∈ l, ∀ v, parseFloat? o.maxAmountRequired = some v →
          goDivMillion v = .nan ∨ goFloatLt usd (goDivMillion v) = true) ∧
        (∀ b, acc = some b → goFloatLt usd b.1 = true) ∧
        (∀ o ∈ r, ∀ v, parseFloat? o.maxAmountRequired = some v →
          goFloatLt (goDivMillion v) usd = false)) := by
  induction os generalizing acc with
  | nil => exact Or.inl ⟨h, by simp⟩
  | cons o os ih =>
    rcases hp : parseFloat? o.maxAmountRequired with _ | amount <;>
      rcases acc with _ | pr <;>
      simp only [cheapestScan, hp] at h
    · rcases ih _ (by simp) h with ⟨h1, h2⟩ | ⟨l, r, m, he, hm, hu, hMax, hl, haccc, hr⟩
      · refine Or.inl ⟨h1, ?_⟩
        intro x hx v hv
        rcases List.mem_cons.1 hx with rfl | hx
        · simp [hp] at hv
        · exact h2 x hx v hv
      · refine Or.inr ⟨o :: l, r, m, by simp [he], hm, hu, hMax, ?_, by simp, hr⟩
        intro x hx v hv
        rcases List.mem_cons.1 hx with rfl | hx
        · simp [hp] at hv
        · exact hl x hx v hv
    · rcases ih _ hinv h with
        ⟨h1, h2⟩ | ⟨l, r, m, he, hm, hu, hMax, hl, haccc, hr⟩
      · refine Or.inl ⟨h1, ?_⟩
        intro x hx v hv
        rcases List.mem_cons.1 hx with rfl | hx
        · simp [hp] at hv
        · exact h2 x hx v hv
      · refine Or.inr ⟨o :: l, r, m, by simp [he], hm, hu, hMax, ?_, haccc, hr⟩
        intro x hx v hv
        rcases List.mem_cons.1 hx with rfl | hx
        · simp [hp] at hv
        · exact hl x hx v hv
    · -- parse some, acc none
      split at h
      · next hltMax =>
        rcases ih _ (by intro b hb; injection hb with hb; subst hb; exact hltMax) h with
          ⟨h1, h2⟩ | ⟨l, r, m, he, hm, hu, hMax, hl, haccc, hr⟩
        · simp only [Option.some.injEq, Prod.mk.injEq] at h1
          obtain ⟨h1a, rfl⟩ := h1
          exact Or.inr ⟨[], os, amount, by simp, hp, h1a.symm, h1a ▸ hltMax,
            by simp, by simp, h2⟩
        · refine Or.inr ⟨o :: l, r, m, by simp [he], hm, hu, hMax, ?_, by simp, hr⟩
          intro x hx v hv
          rcases List.mem_cons.1 hx with rfl | hx
          · rw [hp] at hv
            injection hv with hv
            subst hv
            exact Or.inr (haccc (goDivMillion amount, x) rfl)
          · exact hl x hx v hv
      · next hltMax =>
        have hnb : goFloatLt (goDivMillion amount) mathMaxFloat64 = false :=
          Bool.eq_false_iff.2 hltMax
        rcases ih _ (by simp) h with ⟨h1, h2⟩ | ⟨l, r, m, he, hm, hu, hMax, hl, haccc, hr⟩
        · exact absurd h1 (by simp)
        · refine Or.inr ⟨o :: l, r, m, by simp [he], hm, hu, hMax, ?_, by simp, hr⟩
          intro x hx v hv
          rcases List.mem_cons.1 hx with rfl | hx
          · rw [hp] at hv
            injection hv with hv
            subst hv
            exact below_of_notBelowMax amount usd
              (parsed_notBelowMax_special x.maxAmountRequired amount hp hnb) hMax
          · exact hl x hx v hv
    · -- parse some, acc some pr
      have hprMax : goFloatLt pr.1 mathMaxFloat64 = true := hinv pr rfl
      by_cases hlt : goFloatLt (goDivMillion amount) pr.1 = true
      · rw [if_pos hlt] at h
        have hvMax : goFloatLt (goDivMillion amount) mathMaxFloat64 = true :=
          goFloatLt_trans _ _ _ hlt hprMax
        rcases ih _ (by intro b hb; injection hb with hb; subst hb; exact hvMax) h with
          ⟨h1, h2⟩ | ⟨l, r, m, he, hm, hu, hMax, hl, haccc, hr⟩
        · simp only [Option.some.injEq, Prod.mk.injEq] at h1
          obtain ⟨h1a, rfl⟩ := h1
          refine Or.inr ⟨[], os, amount, by simp, hp, h1a.symm, h1a ▸ hvMax, by simp, ?_, h2⟩
          intro b hb
          injection hb with hb
          subst hb
          exact h1a ▸ hlt
        · refine Or.inr ⟨o :: l, r, m, by simp [he], hm, hu, hMax, ?_, ?_, hr⟩
          · intro x hx v hv
            rcases List.mem_cons.1 hx with rfl | hx
            · rw [hp] at hv
              injection hv with hv
              subst hv
              exact Or.inr (haccc (goDivMillion amount, x) rfl)
            · exact hl x hx v hv
          · intro b hb
            injection hb with hb
            subst hb
            exact goFloatLt_trans _ _ _ (haccc (goDivMillion amount, o) rfl) hlt
      · rw [if_neg hlt] at h
        have hnb : goFloatLt (goDivMillion amount) pr.1 = false := Bool.eq_false_iff.2 hlt
        rcases ih _ (by intro b hb; injection hb with hb; subst hb; exact hprMax) h with
          ⟨h1, h2⟩ | ⟨l, r, m, he, hm, hu, hMax, hl, haccc, hr⟩
        · refine Or.inl ⟨h1, ?_⟩
          intro x hx v hv
          rcases List.mem_cons.1 hx with rfl | hx
          · rw [hp] at hv
            injection hv with hv
            subst hv
            injection h1 with h1x
            rw [h1x] at hnb
            exact hnb
          · exact h2 x hx v hv
        · refine Or.inr ⟨o :: l, r, m, by simp [he], hm, hu, hMax, ?_, ?_, hr⟩
          · intro x hx v hv
            rcases List.mem_cons.1 hx with rfl | hx
            · rw [hp] at hv
              injection hv with hv
              subst hv
              rcases goFloatLt_resolve (goDivMillion amount) pr.1 usd hnb (haccc pr rfl) with
                hres | hres
              · exact Or.inl hres
              · exact Or.inr hres
            · exact hl x hx v hv
          · intro b hb
            injection hb with hb
            subst hb
            exact haccc pr rfl

theorem estimateCostX402_error_iff (accepts : List X402Accept) :
    (∃ e, estimateCostX402 accepts = .error e) ↔
      ∀ o ∈ accepts, ∀ v, parseFloat? o.maxAmountRequired = some v →
        goFloatLt (goDivMillion v) mathMaxFloat64 = false := by
  by_cases hemp : accepts.isEmpty = true
  · constructor
    · intro _ o ho
      rw [List.isEmpty_iff] at hemp
      subst hemp
      simp at ho
    · intro _
      exact ⟨"no x402 payment options", by simp [estimateCostX402, hemp]⟩
  · constructor
    · rintro ⟨e, he⟩
      rcases hscan : cheapestScan accepts none with _ | pr
      · exact ((cheapestScan_eq_none accepts none).1 hscan).2
      · simp only [estimateCostX402, hemp, Bool.false_eq_true, not_false_iff, if_neg,
          hscan] at he
        exact absurd he (by simp)
    · intro hall
      have hscan : cheapestScan accepts none = none :=
        (cheapestScan_eq_none accepts none).2 ⟨rfl, hall⟩
      exact ⟨"no parseable payment amounts", by
        simp only [estimateCostX402, hemp, Bool.false_eq_true, not_false_iff, if_neg, hscan]⟩

theorem estimateCostX402_ok_split (accepts : List X402Accept) (usd : GoFloat)
    (a : X402Accept) (h : estimateCostX402 accepts = .ok (usd, a)) :
    ∃ l r m, accepts = l ++ a :: r ∧ parseFloat? a.maxAmountRequired = some m ∧
      usd = goDivMillion m ∧ goFloatLt usd mathMaxFloat64 = true ∧
      (∀ o ∈ l, ∀ v, parseFloat? o.maxAmountRequired = some v →
        goDivMillion v = .nan ∨ goFloatLt usd (goDivMillion v) = true) ∧
      (∀ o ∈ r, ∀ v, parseFloat? o.maxAmountRequired = some v →
        goFloatLt (goDivMillion v) usd = false) := by
  by_cases hemp : accepts.isEmpty = true
  · simp [estimateCostX402, hemp] at h
  · rcases hscan : cheapestScan accepts none with _ | pr
    · simp [estimateCostX402, hemp, hscan] at h
    · simp only [estimateCostX402, hemp, Bool.false_eq_true, not_false_iff, if_neg,
        hscan] at h
      injection h with h
      subst h
      rcases cheapestScan_eq_some accepts none usd a (by simp) hscan with
        ⟨h1, _⟩ | ⟨l, r, m, he, hm, hu, hMax, hl, _, hr⟩
      · cases h1
      · exact ⟨l, r, m, he, hm, hu, hMax, hl, hr⟩

end Agentpay
namespace Agentpay

/-- C9 -/
theorem checkTrust_spec (w : WoTChecker) (id : String) (amt : ℚ) :
    (amt < w.thresholdUSD → w.CheckTrust id amt = (none, false))
    ∧ (¬ amt < w.thresholdUSD → ∀ e, w.getScore id = .error e →
        w.CheckTrust id amt = (none, true))
    ∧ (∀ err, (w.CheckTrust id amt).1 = some err ↔
        (¬ amt < w.thresholdUSD ∧ ∃ sc, w.getScore id = .ok sc ∧ sc.score < w.minScore ∧
          err = ⟨id, sc.score, w.minScore⟩)) := by
  refine ⟨?_, ?_, ?_⟩
  · intro h
    simp [WoTChecker.CheckTrust, h]
  · intro h e he
    simp [WoTChecker.CheckTrust, h, he]
  · intro err
    by_cases h : amt < w.thresholdUSD
    · simp [WoTChecker.CheckTrust, h]
    · rcases hg : w.getScore id with e | sc
      · simp [WoTChecker.CheckTrust, h, hg]
      · by_cases hs : sc.score < w.minScore
        · simp only [WoTChecker.CheckTrust, if_neg h, hg, if_pos hs]
          constructor
          · intro he
            injection he with he
            exact ⟨h, sc, rfl, hs, he.symm⟩
          · rintro ⟨-, sc2, hsc2, -, herr⟩
            injection hsc2 with hsc2
            subst hsc2
            rw [herr]
        · simp only [WoTChecker.CheckTrust, if_neg h, hg, if_neg hs]
          constructor
          · intro he
            cases he
          · rintro ⟨-, sc2, hsc2, hlt2, -⟩
            injection hsc2 with hsc2
            subst hsc2
            exact absurd hlt2 hs

/-- C9 witness -/
theorem checkTrust_spec_witness :
    (sampleWoT.CheckTrust "0xuntrusted" 1).1 =
      some ⟨"0xuntrusted", qdiv 1 10000, qdiv 1 1000⟩ :=
  ((checkTrust_spec sampleWoT "0xuntrusted" 1).2.2
      ⟨"0xuntrusted", qdiv 1 10000, qdiv 1 1000⟩).2
    ⟨by decide, ⟨"0xuntrusted", qdiv 1 10000, 0⟩, rfl, by decide, rfl⟩

end Agentpay
namespace Agentpay

theorem splitAtFirst_append (l r : List Char) (h : ' ' ∉ l) :
    splitAtFirst ' ' (l ++ ' ' :: r) = some (l, r) := by
  induction l with
  | nil => simp [splitAtFirst]
  | cons c cs ih =>
    have hc : ¬ c = ' ' := fun hc => h (hc ▸ List.mem_cons_self c cs)
    simp only [List.cons_append, splitAtFirst, if_neg hc, List.append_eq]
    rw [ih (fun hm => h (List.mem_cons_of_mem c hm))]
    rfl

/-- C6 -/
theorem detectProtocol_order_spec (resp : Response402) :
    (effectivePaymentHeader resp ≠ "" →
      DetectProtocol resp = parseX402Header (effectivePaymentHeader resp) resp.x402HeaderDecode
      ∧ ∀ r, DetectProtocol resp = .ok r → r.protocol = .x402)
    ∧ (effectivePaymentHeader resp = "" →
        (goHasPrefix resp.wwwAuthenticate "LSAT " || goHasPrefix resp.wwwAuthenticate "L402 ")
          = true →
        DetectProtocol resp = parseL402Challenge resp.wwwAuthenticate)
    ∧ (∀ scheme t, resp.wwwAuthenticate = scheme ++ " " ++ t → ' ' ∉ scheme.data →
        parseL402Challenge resp.wwwAuthenticate =
          (if lookupParam (parseHeaderParams t) "invoice" = "" then .error .missingInvoice
           else .ok ⟨.l402, resp.wwwAuthenticate, none,
              lookupParam (parseHeaderParams t) "invoice",
              lookupParam (parseHeaderParams t) "payment_hash"⟩))
    ∧ (effectivePaymentHeader resp = "" →
        (goHasPrefix resp.wwwAuthenticate "LSAT " || goHasPrefix resp.wwwAuthenticate "L402 ")
          = false →
        resp.body ≠ "" →
        DetectProtocol resp = parseL402Body resp.body resp.l402BodyDecode
        ∧ (resp.l402BodyDecode = none → DetectProtocol resp = .error .unknownProtocol)
        ∧ (∀ d, resp.l402BodyDecode = some d →
            (d.invoice = "" → d.pr = "" → DetectProtocol resp = .error .unknownProtocol)
            ∧ (d.invoice ≠ "" →
                DetectProtocol resp = .ok ⟨.l402, resp.body, none, d.invoice, d.paymentHash⟩)
            ∧ (d.invoice = "" → d.pr ≠ "" →
                DetectProtocol resp = .ok ⟨.l402, resp.body, none, d.pr, d.paymentHash⟩)))
    ∧ (effectivePaymentHeader resp = "" →
        (goHasPrefix resp.wwwAuthenticate "LSAT " || goHasPrefix resp.wwwAuthenticate "L402 ")
          = false →
        resp.body = "" →
        DetectProtocol resp = .error .unknownProtocol) := by
  refine ⟨?_, ?_, ?_, ?_, ?_⟩
  · intro hph
    constructor
    · simp [DetectProtocol, hph]
    · intro r hr
      simp only [DetectProtocol, if_pos hph] at hr
      rcases hd : resp.x402HeaderDecode with _ | x <;> rw [hd] at hr <;>
        simp only [parseX402Header] at hr
      · cases hr
      · injection hr with hr
        rw [← hr]
  · intro hph hpre
    simp [DetectProtocol, hph, hpre]
  · intro scheme t hsp hns
    have hdata : resp.wwwAuthenticate.data = scheme.data ++ ' ' :: t.data := by
      rw [hsp]
      simp [String.data_append]
    simp only [parseL402Challenge, hdata, splitAtFirst_append scheme.data t.data hns]
    have ht : (t.data).asString = t := rfl
    rw [ht]
  · intro hph hpre hbody
    have hdet : DetectProtocol resp = parseL402Body resp.body resp.l402BodyDecode := by
      simp [DetectProtocol, hph, hpre, hbody]
    refine ⟨hdet, ?_, ?_⟩
    · intro hd
      rw [hdet, hd]
      rfl
    · intro d hd
      refine ⟨?_, ?_, ?_⟩
      · intro h1 h2
        rw [hdet, hd]
        simp [parseL402Body, h1, h2]
      · intro h1
        rw [hdet, hd]
        simp [parseL402Body, h1]
      · intro h1 h2
        rw [hdet, hd]
        simp [parseL402Body, h1, h2]
  · intro hph hpre hbody
    simp [DetectProtocol, hph, hpre, hbody]

/-- C6 witness -/
theorem detectProtocol_order_spec_witness :
    DetectProtocol sampleL402Resp =
      .ok ⟨.l402, sampleL402Resp.wwwAuthenticate, none, "lnbc100u1pjtest", "hash123"⟩ := by
  have h2 := (detectProtocol_order_spec sampleL402Resp).2.1 rfl (by decide)
  have h3 := (detectProtocol_order_spec sampleL402Resp).2.2.1 "L402"
    "macaroon=\"abc\", invoice=\"lnbc100u1pjtest\", payment_hash=\"hash123\"" rfl (by decide)
  rw [h2, h3]
  decide

end Agentpay
namespace Agentpay

theorem checkBudget_some_iff (cfg : Config) (s c : ℚ) :
    (∃ be, checkBudget cfg s c = some be) ↔
      (cfg.maxPerRequestUSD > 0 ∧ c > cfg.maxPerRequestUSD) ∨
      (cfg.maxSessionUSD > 0 ∧ qadd s c > cfg.maxSessionUSD) := by
  unfold checkBudget
  split_ifs with h1 h2
  · simp [h1]
  · simp [h1, h2]
  · simp [h1, h2]

theorem receiptTotal_append_one (l : List Receipt) (r : Receipt) :
    receiptTotal (l ++ [r]) = qadd (receiptTotal l) r.usdCost := by
  simp [receiptTotal, List.foldl_append]

/-- Master case analysis of one `Fetch` call: either the ledger is
untouched, or the call settled — the challenge was detected from a
successful initial exchange, a registered provider estimated the cost,
the budget gate passed, dry-run was off, `Pay` succeeded, the retry
came back below 400 — and the ledger gained exactly that payment's
receipt. -/
theorem fetch_out_cases (cfg : Config) (providers : Protocol → Option ProviderModel)
    (wot : Option WoTChecker) (st : RouterState) (method url : String)
    (body : Option String) (headers : List (String × String)) (env : FetchEnv)
    (out : RouterState × Except FetchError (String × Option Receipt) × FetchTrace)
    (hout : Fetch cfg providers wot st method url body headers env = out) :
    out.1 = st
    ∨ (∃ payReq provider usd desc hd code rb,
        (∃ resp, env.sendResult = .ok resp ∧ DetectProtocol resp = .ok payReq) ∧
        providers payReq.protocol = some provider ∧
        provider.estimateCost payReq = .ok (usd, desc) ∧
        checkBudget cfg st.sessionSpend usd = none ∧
        cfg.dryRun = false ∧
        provider.pay payReq = .ok hd ∧
        env.retrySendResult = .ok (code, rb) ∧ code < 400 ∧
        out.1 = recordPayment st usd
            ⟨env.now, url, payReq.protocol.toGoString, desc, usd,
              "Paid " ++ desc ++ " via " ++ payReq.protocol.toGoString, ""⟩ ∧
        out.2.1 = .ok (rb, some ⟨env.now, url, payReq.protocol.toGoString, desc, usd,
              "Paid " ++ desc ++ " via " ++ payReq.protocol.toGoString, ""⟩)) := by
  delta Fetch at hout
  split at hout
  · exact Or.inl (congrArg Prod.fst hout.symm)
  split at hout
  · exact Or.inl (congrArg Prod.fst hout.symm)
  split at hout
  · exact Or.inl (congrArg Prod.fst hout.symm)
  next resp hsend =>
  split at hout
  · exact Or.inl (congrArg Prod.fst hout.symm)
  split at hout
  · split at hout
    · exact Or.inl (congrArg Prod.fst hout.symm)
    · exact Or.inl (congrArg Prod.fst hout.symm)
  split at hout
  · exact Or.inl (congrArg Prod.fst hout.symm)
  next payReq hdet =>
  split at hout
  · exact Or.inl (congrArg Prod.fst hout.symm)
  next provider hprov =>
  split at hout
  · exact Or.inl (congrArg Prod.fst hout.symm)
  next pr hest =>
  split at hout
  · exact Or.inl (congrArg Prod.fst hout.symm)
  next hbud =>
  split at hout
  · exact Or.inl (congrArg Prod.fst hout.symm)
  next htrust =>
  split at hout
  · exact Or.inl (congrArg Prod.fst hout.symm)
  next hdry =>
  split at hout
  · exact Or.inl (congrArg Prod.fst hout.symm)
  next hd hpay =>
  split at hout
  · exact Or.inl (congrArg Prod.fst hout.symm)
  next hbuild =>
  split at hout
  · exact Or.inl (congrArg Prod.fst hout.symm)
  next rr hretry =>
  split at hout
  · exact Or.inl (congrArg Prod.fst hout.symm)
  split at hout
  · exact Or.inl (congrArg Prod.fst hout.symm)
  next hcode =>
  refine Or.inr ⟨payReq, provider, pr.1, pr.2, hd, rr.1, rr.2,
    ⟨resp, hsend, hdet⟩, hprov, ?_, hbud, ?_, hpay, ?_, ?_, ?_, ?_⟩
  · rw [hest]
  · exact Bool.eq_false_iff.2 hdry
  · rw [hretry]
  · exact Nat.lt_of_not_le hcode
  · exact congrArg Prod.fst hout.symm
  · exact congrArg (fun x => x.2.1) hout.symm

theorem fetch_invariant_step (cfg : Config) (providers : Protocol → Option ProviderModel)
    (wot : Option WoTChecker) (st : RouterState) (method url : String)
    (body : Option String) (headers : List (String × String)) (env : FetchEnv)
    (hinv : st.sessionSpend = receiptTotal st.receipts) :
    (Fetch cfg providers wot st method url body headers env).1.sessionSpend =
      receiptTotal (Fetch cfg providers wot st method url body headers env).1.receipts := by
  rcases fetch_out_cases cfg providers wot st method url body headers env _ rfl with
    hl | ⟨payReq, provider, usd, desc, hd, code, rb, hresp, hprov, hest, hbud, hdry, hpay,
      hretry, hcode, hst, hres⟩
  · rw [hl]
    exact hinv
  · rw [hst]
    simp only [recordPayment, receiptTotal_append_one]
    rw [hinv]

theorem fetch_dryRun_step (cfg : Config) (providers : Protocol → Option ProviderModel)
    (wot : Option WoTChecker) (st : RouterState) (method url : String)
    (body : Option String) (headers : List (String × String)) (env : FetchEnv)
    (hdry : cfg.dryRun = true) :
    (Fetch cfg providers wot st method url body headers env).1 = st := by
  rcases fetch_out_cases cfg providers wot st method url body headers env _ rfl with
    hl | ⟨_, _, _, _, _, _, _, _, _, _, _, hdry2, _, _, _, _, _⟩
  · exact hl
  · rw [hdry] at hdry2
    cases hdry2

theorem fetch_monotone_step (cfg : Config) (providers : Protocol → Option ProviderModel)
    (wot : Option WoTChecker)
    (hpos : ∀ p prov, providers p = some prov →
      ∀ req usd desc, prov.estimateCost req = .ok (usd, desc) → 0 ≤ usd)
    (st : RouterState) (method url : String)
    (body : Option String) (headers : List (String × String)) (env : FetchEnv) :
    st.sessionSpend ≤ (Fetch cfg providers wot st method url body headers env).1.sessionSpend := by
  rcases fetch_out_cases cfg providers wot st method url body headers env _ rfl with
    hl | ⟨payReq, provider, usd, desc, hd, code, rb, hresp, hprov, hest, hbud, hdry, hpay,
      hretry, hcode, hst, hres⟩
  · rw [hl]
  · rw [hst]
    simp only [recordPayment, qadd_eq]
    have := hpos payReq.protocol provider hprov payReq usd desc hest
    linarith

theorem runFetches_invariant (cfg : Config) (providers : Protocol → Option ProviderModel)
    (wot : Option WoTChecker) (calls : List FetchCall) (st : RouterState)
    (hinv : st.sessionSpend = receiptTotal st.receipts) :
    (runFetches cfg providers wot st calls).sessionSpend =
      receiptTotal (runFetches cfg providers wot st calls).receipts := by
  induction calls generalizing st with
  | nil => exact hinv
  | cons c cs ih =>
    exact ih _ (fetch_invariant_step cfg providers wot st c.method c.url c.body c.headers c.env hinv)

theorem runFetches_monotone (cfg : Config) (providers : Protocol → Option ProviderModel)
    (wot : Option WoTChecker)
    (hpos : ∀ p prov, providers p = some prov →
      ∀ req usd desc, prov.estimateCost req = .ok (usd, desc) → 0 ≤ usd)
    (calls : List FetchCall) (st : RouterState) :
    st.sessionSpend ≤ (runFetches cfg providers wot st calls).sessionSpend := by
  induction calls generalizing st with
  | nil => exact le_refl _
  | cons c cs ih =>
    exact le_trans
      (fetch_monotone_step cfg providers wot hpos st c.method c.url c.body c.headers c.env)
      (ih _)

/-- C1 counterexample: with the repository's own x402 provider
registered and a 402 challenge whose single accept entry carries
`maxAmountRequired = "-1000000"`, a completed (settled, non-dry-run)
Fetch drives `sessionSpend` from 0 down to −1: `sessionSpend` is not
monotonically non-decreasing over all configurations and sequences. -/
theorem fetch_monotonicity_counterexample :
    (Fetch ⟨0, 0, false, false⟩ (x402Only (.ok ("Payment-Signature", "sig"))) none routerInit
      "GET" "http://x" none [] negAmountEnv).1.sessionSpend < routerInit.sessionSpend ∧
    (Fetch ⟨0, 0, false, false⟩ (x402Only (.ok ("Payment-Signature", "sig"))) none routerInit
      "GET" "http://x" none [] negAmountEnv).2.1 =
      .ok ("paid", some ⟨1700000000, "http://x", "x402", "$-1.0000 USDC on eip155:84532",
        qneg 1, "Paid $-1.0000 USDC on eip155:84532 via x402", ""⟩) := by
  decide

/-- C1 amended: for every Router configuration and every serialised
sequence of completed Fetch calls, `sessionSpend` equals the sum of
USDCost over all recorded receipts; when DryRun is set a Fetch never
changes the ledger (the synthetic dry-run receipt is returned but
neither appended nor counted); and `sessionSpend` is monotonically
non-decreasing provided every registered provider's cost estimates are
non-negative (which the code does not enforce: see the
counterexample). -/
theorem fetch_ledger_invariant_amended :
    (∀ cfg providers wot calls,
      (runFetches cfg providers wot routerInit calls).sessionSpend =
        receiptTotal (runFetches cfg providers wot routerInit calls).receipts)
    ∧ (∀ cfg providers wot st method url body headers env, cfg.dryRun = true →
        (Fetch cfg providers wot st method url body headers env).1 = st)
    ∧ (∀ cfg providers wot,
        (∀ p prov, providers p = some prov →
          ∀ req usd desc, prov.estimateCost req = .ok (usd, desc) → 0 ≤ usd) →
        ∀ st calls, st.sessionSpend ≤ (runFetches cfg providers wot st calls).sessionSpend) :=
  ⟨fun cfg providers wot calls => runFetches_invariant cfg providers wot calls routerInit rfl,
   fun cfg providers wot st method url body headers env h =>
     fetch_dryRun_step cfg providers wot st method url body headers env h,
   fun cfg providers wot hpos st calls => runFetches_monotone cfg providers wot hpos calls st⟩

/-- C1 witness: a dry-run call against a 10 USD challenge leaves the
fresh ledger untouched. -/
theorem fetch_ledger_invariant_amended_witness :
    (Fetch ⟨1, 10, true, false⟩ (x402Only (.ok ("Payment-Signature", "sig"))) none routerInit
      "GET" "http://x" none [] tenUSDEnv).1 = routerInit :=
  fetch_ledger_invariant_amended.2.1 ⟨1, 10, true, false⟩
    (x402Only (.ok ("Payment-Signature", "sig"))) none routerInit
    "GET" "http://x" none [] tenUSDEnv rfl

/-- C2: in every Fetch that reaches the budget gate (402 detected,
provider found, cost estimated), the call fails with a budget error
exactly when `usdCost > MaxPerRequestUSD` (if that limit is positive)
or `sessionSpend + usdCost > MaxSessionUSD` (if that limit is
positive); the configuration — including DryRun — is arbitrary, and on
a budget rejection `provider.Pay` was never invoked and the ledger is
unchanged. -/
theorem fetch_budget_gate (cfg : Config) (providers : Protocol → Option ProviderModel)
    (wot : Option WoTChecker) (st : RouterState) (method url : String)
    (body : Option String) (headers : List (String × String)) (env : FetchEnv)
    (resp : Response402) (payReq : PaymentRequirement) (provider : ProviderModel)
    (usd : ℚ) (desc : String)
    (h0 : env.bodyReadError = false) (h1 : env.buildReqError = false)
    (h2 : env.sendResult = .ok resp) (h3 : env.readRespError = false)
    (h4 : resp.statusCode = 402) (h5 : DetectProtocol resp = .ok payReq)
    (h6 : providers payReq.protocol = some provider)
    (h7 : provider.estimateCost payReq = .ok (usd, desc)) :
    ((∃ be, (Fetch cfg providers wot st method url body headers env).2.1 =
        .error (.budget be)) ↔
      (cfg.maxPerRequestUSD > 0 ∧ usd > cfg.maxPerRequestUSD) ∨
      (cfg.maxSessionUSD > 0 ∧ qadd st.sessionSpend usd > cfg.maxSessionUSD))
    ∧ (∀ be, (Fetch cfg providers wot st method url body headers env).2.1 =
        .error (.budget be) →
        (Fetch cfg providers wot st method url body headers env).2.2.payCalled = false
        ∧ (Fetch cfg providers wot st method url body headers env).1 = st) := by
  generalize hout : Fetch cfg providers wot st method url body headers env = out
  rw [Fetch] at hout
  simp only [h0, h1, h2, h3, h4, h5, h6, h7, Bool.false_eq_true, and_false, if_false,
    ite_false, if_neg, not_false_iff, ne_eq, not_true_eq_false, if_true] at hout
  rcases hb : checkBudget cfg st.sessionSpend usd with _ | be
  · simp only [hb] at hout
    have hnob : ∀ be2, out.2.1 ≠ .error (.budget be2) := by
      intro be2 hbe
      split at hout
      · rw [← hout] at hbe
        simp at hbe
      split at hout
      · rw [← hout] at hbe
        simp at hbe
      split at hout
      · rw [← hout] at hbe
        simp at hbe
      split at hout
      · rw [← hout] at hbe
        simp at hbe
      split at hout
      · rw [← hout] at hbe
        simp at hbe
      split at hout
      · rw [← hout] at hbe
        simp at hbe
      split at hout
      · rw [← hout] at hbe
        simp at hbe
      rw [← hout] at hbe
      simp at hbe
    constructor
    · constructor
      · rintro ⟨be2, hbe⟩
        exact absurd hbe (hnob be2)
      · intro hcond
        have := (checkBudget_some_iff cfg st.sessionSpend usd).2 hcond
        rcases this with ⟨be2, hbe2⟩
        rw [hbe2] at hb
        cases hb
    · intro be2 hbe
      exact absurd hbe (hnob be2)
  · simp only [hb] at hout
    subst hout
    constructor
    · simp only [Except.error.injEq, FetchError.budget.injEq]
      constructor
      · intro _
        have : ∃ x, checkBudget cfg st.sessionSpend usd = some x := ⟨be, hb⟩
        exact (checkBudget_some_iff cfg st.sessionSpend usd).1 this
      · intro _
        exact ⟨be, rfl⟩
    · intro be2 hbe
      exact ⟨rfl, rfl⟩

/-- C2 witness: spec scenario 4 — per-request cap 1 USD, estimated
cost 10 USD: the Fetch fails with a budget error. -/
theorem fetch_budget_gate_witness :
    ∃ be, (Fetch ⟨1, 0, false, false⟩ (x402Only (.ok ("Payment-Signature", "sig"))) none
        routerInit "GET" "http://x" none [] tenUSDEnv).2.1 = .error (.budget be) :=
  (fetch_budget_gate ⟨1, 0, false, false⟩ (x402Only (.ok ("Payment-Signature", "sig"))) none
      routerInit "GET" "http://x" none [] tenUSDEnv tenUSDResp
      ⟨.x402, "someheader", some ⟨[⟨"exact", "eip155:84532", "10000000", "", "", "", "0xabc",
        60, "USDC", ""⟩]⟩, "", ""⟩
      (X402ProviderModel (.ok ("Payment-Signature", "sig"))) 10
      "$10.0000 USDC on eip155:84532"
      rfl rfl rfl rfl rfl (by decide) rfl (by decide)).1.2
    (Or.inl (by decide))

/-- C3: whenever Fetch returns a non-nil error — a provider.Pay failure
and a post-settlement retry status ≥ 400 included — the Router's ledger
(sessionSpend and receipts) is exactly as before the call; and the
ledger changes only when the payment retry completed with status < 400,
in which case exactly the new receipt was appended and its cost added. -/
theorem fetch_error_leaves_ledger (cfg : Config) (providers : Protocol → Option ProviderModel)
    (wot : Option WoTChecker) (st : RouterState) (method url : String)
    (body : Option String) (headers : List (String × String)) (env : FetchEnv) :
    (∀ e, (Fetch cfg providers wot st method url body headers env).2.1 = .error e →
      (Fetch cfg providers wot st method url body headers env).1 = st)
    ∧ ((Fetch cfg providers wot st method url body headers env).1 ≠ st →
        ∃ code rb, env.retrySendResult = .ok (code, rb) ∧ code < 400 ∧
          ∃ rcp, (Fetch cfg providers wot st method url body headers env).2.1 =
              .ok (rb, some rcp) ∧
            (Fetch cfg providers wot st method url body headers env).1 =
              ⟨qadd st.sessionSpend rcp.usdCost, st.receipts ++ [rcp]⟩) := by
  rcases fetch_out_cases cfg providers wot st method url body headers env _ rfl with
    hl | ⟨payReq, provider, usd, desc, hd, code, rb, hresp, hprov, hest, hbud, hdry, hpay,
      hretry, hcode, hst, hres⟩
  · refine ⟨fun e he => hl, fun hne => absurd hl hne⟩
  · constructor
    · intro e he
      rw [hres] at he
      cases he
    · intro hne
      exact ⟨code, rb, hretry, hcode,
        ⟨env.now, url, payReq.protocol.toGoString, desc, usd,
          "Paid " ++ desc ++ " via " ++ payReq.protocol.toGoString, ""⟩, hres, hst⟩

/-- C3 witness: a provider.Pay failure leaves a fresh ledger exactly as
it was. -/
theorem fetch_error_leaves_ledger_witness :
    (Fetch ⟨0, 0, false, false⟩ (x402Only (.error "wallet down")) none routerInit
      "GET" "http://x" none [] tenUSDEnv).1 = routerInit :=
  (fetch_error_leaves_ledger ⟨0, 0, false, false⟩ (x402Only (.error "wallet down")) none
      routerInit "GET" "http://x" none [] tenUSDEnv).1
    (.payment .x402 "$10.0000 USDC on eip155:84532" "wallet down") (by decide)

theorem fetch_trace_requests (cfg : Config) (providers : Protocol → Option ProviderModel)
    (wot : Option WoTChecker) (st : RouterState) (method url : String)
    (body : Option String) (headers : List (String × String)) (env : FetchEnv)
    (out : RouterState × Except FetchError (String × Option Receipt) × FetchTrace)
    (hout : Fetch cfg providers wot st method url body headers env = out) :
    (∀ r ∈ out.2.2.requests, r.body = body)
    ∧ out.2.2.bodyReads = bodyReadCount body
    ∧ out.2.2.requests.length ≤ 2
    ∧ (∀ r1 r2, out.2.2.requests = [r1, r2] →
        r1.body = r2.body ∧ r1.proofHeader = none ∧ r2.proofHeader.isSome) := by
  delta Fetch at hout
  repeat' split at hout
  all_goals subst hout
  all_goals refine ⟨by simp, rfl, by simp, ?_⟩
  all_goals intro r1 r2 hr
  all_goals simp_all
  all_goals obtain ⟨hx1, hx2⟩ := hr
  all_goals subst hx1
  all_goals subst hx2
  all_goals simp

/-- C8: every outbound request of a Fetch carries exactly the buffered
body (`none` stays `none`, so the nil/empty distinction is preserved);
the caller's body reader is consumed exactly once when a body is
supplied and never otherwise; at most two requests go out; and when a
retry is sent its body bytes equal the initial request's, with the
proof header present only on the retry. -/
theorem fetch_body_replay (cfg : Config) (providers : Protocol → Option ProviderModel)
    (wot : Option WoTChecker) (st : RouterState) (method url : String)
    (body : Option String) (headers : List (String × String)) (env : FetchEnv) :
    (∀ r ∈ (Fetch cfg providers wot st method url body headers env).2.2.requests,
      r.body = body)
    ∧ (Fetch cfg providers wot st method url body headers env).2.2.bodyReads =
        bodyReadCount body
    ∧ (Fetch cfg providers wot st method url body headers env).2.2.requests.length ≤ 2
    ∧ (∀ r1 r2, (Fetch cfg providers wot st method url body headers env).2.2.requests =
          [r1, r2] →
        r1.body = r2.body ∧ r1.proofHeader = none ∧ r2.proofHeader.isSome) :=
  fetch_trace_requests cfg providers wot st method url body headers env _ rfl

/-- C8 witness: a settled call with body "hello" sends it twice,
byte-identical, with the proof header only on the retry. -/
theorem fetch_body_replay_witness :
    (⟨"POST", "http://x", [], none, some "hello"⟩ : SentRequest).body =
        (⟨"POST", "http://x", [], some ("Payment-Signature", "sig"), some "hello"⟩ :
          SentRequest).body
    ∧ (⟨"POST", "http://x", [], none, some "hello"⟩ : SentRequest).proofHeader = none
    ∧ (⟨"POST", "http://x", [], some ("Payment-Signature", "sig"), some "hello"⟩ :
        SentRequest).proofHeader.isSome :=
  (fetch_body_replay ⟨0, 0, false, false⟩ (x402Only (.ok ("Payment-Signature", "sig"))) none
      routerInit "POST" "http://x" (some "hello") [] tenUSDEnv).2.2.2
    ⟨"POST", "http://x", [], none, some "hello"⟩
    ⟨"POST", "http://x", [], some ("Payment-Signature", "sig"), some "hello"⟩
    (by decide)

end Agentpay
namespace Agentpay

theorem splitAtFirst_append2 (sep : Char) (l r : List Char) (h : sep ∉ l) :
    splitAtFirst sep (l ++ sep :: r) = some (l, r) := by
  induction l with
  | nil => simp [splitAtFirst]
  | cons c cs ih =>
    have hc : ¬ c = sep := fun hc => h (hc ▸ List.mem_cons_self c cs)
    simp only [List.cons_append, splitAtFirst, if_neg hc, List.append_eq]
    rw [ih (fun hm => h (List.mem_cons_of_mem c hm))]
    rfl

theorem find?_first {α : Type} (p : α → Bool) (l : List α) (a : α)
    (h : l.find? p = some a) :
    ∃ l1 l2, l = l1 ++ a :: l2 ∧ (∀ x ∈ l1, p x = false) ∧ p a = true := by
  induction l with
  | nil => cases h
  | cons c cs ih =>
    rcases hp : p c with _ | _
    · rw [List.find?_cons_of_neg _ (by simp [hp])] at h
      obtain ⟨l1, l2, he, hl1, hpa⟩ := ih h
      exact ⟨c :: l1, l2, by simp [he], by
        intro x hx
        rcases List.mem_cons.1 hx with rfl | hx
        · exact hp
        · exact hl1 x hx, hpa⟩
    · rw [List.find?_cons_of_pos _ hp] at h
      injection h with h
      subst h
      exact ⟨[], cs, rfl, by simp, hp⟩

theorem hexDigitChar_lower (n : Nat) (h : n < 16) :
    isLowerHexDigit (hexDigitChar n) = true := by
  interval_cases n <;> decide

theorem hexOfBytes_length (bs : List Nat) : (hexOfBytes bs).length = 2 * bs.length := by
  induction bs with
  | nil => rfl
  | cons b bs ih => simp [hexOfBytes, byteHex, List.length_cons] at ih ⊢; omega

theorem hexOfBytes_lower (bs : List Nat) : (hexOfBytes bs).all isLowerHexDigit = true := by
  induction bs with
  | nil => rfl
  | cons b bs ih =>
    simp only [hexOfBytes, List.foldr_cons] at ih ⊢
    simp only [byteHex, List.all_append, List.all_cons, List.all_nil, Bool.and_true]
    rw [hexDigitChar_lower _ (Nat.mod_lt _ (by norm_num)),
      hexDigitChar_lower _ (Nat.mod_lt _ (by norm_num))]
    simpa [hexOfBytes] using ih

theorem natHexFuel_length (fuel n : Nat) (h : n < 16 ^ fuel) :
    (natHexFuel fuel n).length ≤ fuel := by
  induction fuel generalizing n with
  | zero => simp [natHexFuel]
  | succ f ih =>
    by_cases hz : n = 0
    · simp [natHexFuel, hz]
    · simp only [natHexFuel, if_neg hz, List.length_append, List.length_cons,
        List.length_nil]
    
      have : n / 16 < 16 ^ f := by
        rw [Nat.div_lt_iff_lt_mul (by norm_num)]
        calc n < 16 ^ (f + 1) := h
        _ = 16 ^ f * 16 := by ring
      have := ih (n / 16) this
      omega

theorem natHexFuel_lower (fuel n : Nat) :
    (natHexFuel fuel n).all isLowerHexDigit = true := by
  induction fuel generalizing n with
  | zero => rfl
  | succ f ih =>
    by_cases hz : n = 0
    · simp [natHexFuel, hz]
    · simp only [natHexFuel, if_neg hz, List.all_append, List.all_cons, List.all_nil,
        Bool.and_true]
      rw [ih (n / 16), hexDigitChar_lower _ (Nat.mod_lt _ (by norm_num))]
      rfl

theorem nonce_format_rand (bs : List Nat) (t : Int) (hlen : bs.length = 32) :
    isNonceFormat (generateNonce (some bs) t) = true := by
  have hd : (generateNonce (some bs) t).data = '0' :: 'x' :: hexOfBytes bs := rfl
  simp only [isNonceFormat, hd]
  rw [hexOfBytes_length, hlen, hexOfBytes_lower]
  simp

theorem nonce_format_fallback (t : Int) (h0 : 0 ≤ t) (h1 : t < 9223372036854775808) :
    isNonceFormat (generateNonce none t) = true := by
  have hd : (generateNonce none t).data = '0' :: 'x' :: pad64Hex t := rfl
  simp only [isNonceFormat, hd]
  have hlen : (natHex t.toNat).length ≤ 64 := by
    by_cases hz : t.toNat = 0
    · simp [natHex, hz]
    · simp only [natHex, if_neg hz]
      apply natHexFuel_length
      have : t.toNat < 9223372036854775808 := by omega
      calc t.toNat < 9223372036854775808 := this
      _ < 16 ^ 64 := by norm_num
  have hlow : (natHex t.toNat).all isLowerHexDigit = true := by
    by_cases hz : t.toNat = 0
    · simp [natHex, hz]
      rfl
    · simp only [natHex, if_neg hz]
      exact natHexFuel_lower 64 t.toNat
  rw [decide_eq_true_eq]
  constructor
  · simp only [pad64Hex, List.length_append, List.length_replicate]
    omega
  · simp only [pad64Hex, List.all_append]
    rw [hlow]
    simp only [Bool.and_true]
    rw [List.all_eq_true]
    intro c hc
    rw [List.eq_of_mem_replicate hc]
    rfl

end Agentpay
namespace Agentpay

/-- C7 -/
theorem cdpPay_spec (p : CDPProvider) (req : PaymentRequirement) (x : X402Requirement)
    (env : CDPPayEnv)
    (haddr : p.address ≠ "") (hx : req.x402Requirement = some x) (hne : ¬x.accepts.isEmpty) :
    ((x.accepts.find? (fun o => goHasPrefix o.network "eip155:") = none →
        CDPProvider.Pay p req env = .error "no EVM payment option found")
      ∧ ((∀ o ∈ x.accepts, goHasPrefix o.network "eip155:" = false) →
        x.accepts.find? (fun o => goHasPrefix o.network "eip155:") = none))
    ∧ (∀ a, x.accepts.find? (fun o => goHasPrefix o.network "eip155:") = some a →
        (∃ l1 l2, x.accepts = l1 ++ a :: l2 ∧
            (∀ o ∈ l1, goHasPrefix o.network "eip155:" = false) ∧
            goHasPrefix a.network "eip155:" = true)
        ∧ (∀ e, env.sign (marshalVal (typedDataJson p.address a (parseChainId a.network)
              (generateNonce env.randBytes env.nowUnixNano) "0"
              (toString (env.nowUnix + 600)))).asString = .error e →
            CDPProvider.Pay p req env = .error ("CDP sign: " ++ e))
        ∧ (∀ sig, env.sign (marshalVal (typedDataJson p.address a (parseChainId a.network)
              (generateNonce env.randBytes env.nowUnixNano) "0"
              (toString (env.nowUnix + 600)))).asString = .ok sig →
            CDPProvider.Pay p req env = .ok ("Payment",
              (base64Encode (utf8Encode (marshalVal (paymentEnvelopeJson sig p.address a
                (generateNonce env.randBytes env.nowUnixNano) "0"
                (toString (env.nowUnix + 600)))))).asString)))
    ∧ (∀ rest id, goParseInt64 rest = some id → parseChainId ("eip155:" ++ rest) = id)
    ∧ (∀ rest, goParseInt64 rest = none → parseChainId ("eip155:" ++ rest) = 84532)
    ∧ (∀ bs, env.randBytes = some bs → bs.length = 32 →
        isNonceFormat (generateNonce env.randBytes env.nowUnixNano) = true)
    ∧ (env.randBytes = none → 0 ≤ env.nowUnixNano →
        env.nowUnixNano < 9223372036854775808 →
        isNonceFormat (generateNonce env.randBytes env.nowUnixNano) = true) := by
  have hsplit : ∀ rest : String,
      splitAtFirst ':' ("eip155:" ++ rest).data = some ("eip155".data, rest.data) := by
    intro rest
    have hd : ("eip155:" ++ rest).data = "eip155".data ++ ':' :: rest.data := by
      rw [String.data_append]
      rfl
    rw [hd]
    exact splitAtFirst_append2 ':' _ _ (by decide)
  refine ⟨⟨?_, ?_⟩, ?_, ?_, ?_, ?_, ?_⟩
  · intro hfind
    simp only [CDPProvider.Pay, if_neg haddr, hx, hne, Bool.false_eq_true, not_false_iff,
      if_neg, hfind]
  · intro hall
    rw [List.find?_eq_none]
    intro o ho
    simp [hall o ho]
  · intro a hfind
    refine ⟨?_, ?_, ?_⟩
    · obtain ⟨l1, l2, he, hl1, hpa⟩ := find?_first _ _ _ hfind
      exact ⟨l1, l2, he, hl1, hpa⟩
    · intro e he
      simp only [CDPProvider.Pay, if_neg haddr, hx, hne, Bool.false_eq_true, not_false_iff,
        if_neg, hfind, he]
    · intro sig hsig
      simp only [CDPProvider.Pay, if_neg haddr, hx, hne, Bool.false_eq_true, not_false_iff,
        if_neg, hfind, hsig]
  · intro rest id hp
    simp only [parseChainId, hsplit rest]
    have : rest.data.asString = rest := rfl
    rw [this, hp]
  · intro rest hp
    simp only [parseChainId, hsplit rest]
    have : rest.data.asString = rest := rfl
    rw [this, hp]
  · intro bs hbs hlen
    rw [hbs]
    exact nonce_format_rand bs env.nowUnixNano hlen
  · intro hnone h0 h1
    rw [hnone]
    exact nonce_format_fallback env.nowUnixNano h0 h1

/-- C7 witness -/
theorem cdpPay_spec_witness :
    CDPProvider.Pay sampleCDP ⟨.x402, "raw", some ⟨[sampleAccept50000]⟩, "", ""⟩ sampleCDPEnv =
      .ok ("Payment",
        (base64Encode (utf8Encode (marshalVal (paymentEnvelopeJson "0xsigdata" "0xCDPWallet"
          sampleAccept50000
          (generateNonce sampleCDPEnv.randBytes sampleCDPEnv.nowUnixNano) "0"
          (toString (sampleCDPEnv.nowUnix + 600)))))).asString) := by
  have h := (cdpPay_spec sampleCDP ⟨.x402, "raw", some ⟨[sampleAccept50000]⟩, "", ""⟩
    ⟨[sampleAccept50000]⟩ sampleCDPEnv (by decide) rfl (by decide)).2.1 sampleAccept50000 rfl
  have h2 := h.2.2 "0xsigdata" rfl
  have haddr : sampleCDP.address = "0xCDPWallet" := rfl
  rw [h2, haddr]

end Agentpay

namespace Agentpay

/-! ### Key order (sort.Strings) facts -/

theorem listLE_cons_iff (a b : Char) (as bs : List Char) :
    listLE (a :: as) (b :: bs) = true ↔
      (a.toNat < b.toNat ∨ (a.toNat = b.toNat ∧ listLE as bs = true)) := by
  simp only [listLE]
  split_ifs with h1 h2
  · simp [h1]
  · simp; omega
  · have h3 : a.toNat = b.toNat := by omega
    simp [h3]

instance : IsTotal (String × Json) entryLE := by
  constructor
  have H : ∀ x y : List Char, listLE x y = true ∨ listLE y x = true := by
    intro x
    induction x with
    | nil => intro y; left; rfl
    | cons a as ih =>
      intro y
      cases y with
      | nil => right; rfl
      | cons b bs =>
        rw [listLE_cons_iff, listLE_cons_iff]
        rcases ih bs with h | h
        · rcases Nat.lt_trichotomy a.toNat b.toNat with h2 | h2 | h2
          · left; left; exact h2
          · left; right; exact ⟨h2, h⟩
          · right; left; exact h2
        · rcases Nat.lt_trichotomy a.toNat b.toNat with h2 | h2 | h2
          · left; left; exact h2
          · right; right; exact ⟨h2.symm, h⟩
          · right; left; exact h2
  intro a b
  exact H a.1.data b.1.data

instance : IsTrans (String × Json) entryLE := by
  constructor
  have H : ∀ x y z : List Char,
      listLE x y = true → listLE y z = true → listLE x z = true := by
    intro x
    induction x with
    | nil => intro y z _ _; rfl
    | cons a as ih =>
      intro y z hxy hyz
      cases y with
      | nil => simp [listLE] at hxy
      | cons b bs =>
        cases z with
        | nil => simp [listLE] at hyz
        | cons c cs =>
          rw [listLE_cons_iff] at hxy hyz ⊢
          rcases hxy with h1 | ⟨h1, h1t⟩ <;> rcases hyz with h2 | ⟨h2, h2t⟩
          · left; omega
          · left; omega
          · left; omega
          · right; exact ⟨by omega, ih bs cs h1t h2t⟩
  intro a b c
  exact H a.1.data b.1.data c.1.data

instance : IsAntisymm (String × Json) entryLT := by
  constructor
  have H : ∀ x y : List Char, listLE x y = true → listLE y x = true → x = y := by
    intro x
    induction x with
    | nil =>
      intro y _ hyx
      cases y with
      | nil => rfl
      | cons b bs => simp [listLE] at hyx
    | cons a as ih =>
      intro y hxy hyx
      cases y with
      | nil => simp [listLE] at hxy
      | cons b bs =>
        rw [listLE_cons_iff] at hxy hyx
        have hab : a.toNat = b.toNat := by omega
        have hab2 : a = b := Char.ext (UInt32.toNat.inj hab)
        subst hab2
        have ht : listLE as bs = true := by
          rcases hxy with h | ⟨_, h⟩
          · omega
          · exact h
        have ht2 : listLE bs as = true := by
          rcases hyx with h | ⟨_, h⟩
          · omega
          · exact h
        exact congrArg (a :: ·) (ih bs ht ht2)
  intro a b h1 h2
  have hd : a.1.data = b.1.data := H _ _ h1.1 h2.1
  exact absurd (String.ext hd) h1.2

/-! ### Round-trip groundwork -/

theorem skipWs_cons_of_not (c : Char) (cs : List Char) (h : isJsonWs c = false) :
    skipWs (c :: cs) = c :: cs := by
  simp [skipWs, h]

theorem all_takeWhile_self (p : Char → Bool) (l : List Char) :
    (l.takeWhile p).all p = true := by
  induction l with
  | nil => rfl
  | cons c cs ih =>
    by_cases h : p c
    · simp [List.takeWhile, h, ih]
    · simp [List.takeWhile, h]

theorem takeWhile_append_all (p : Char → Bool) (l r : List Char)
    (hl : l.all p = true) (hr : ∀ c t, r = c :: t → p c = false) :
    (l ++ r).takeWhile p = l := by
  induction l with
  | nil =>
    cases r with
    | nil => rfl
    | cons c t => simp [List.takeWhile, hr c t rfl]
  | cons c cs ih =>
    simp only [List.all_cons, Bool.and_eq_true] at hl
    simp [List.takeWhile, hl.1, ih hl.2]

theorem dropWhile_append_all (p : Char → Bool) (l r : List Char)
    (hl : l.all p = true) (hr : ∀ c t, r = c :: t → p c = false) :
    (l ++ r).dropWhile p = r := by
  induction l with
  | nil =>
    cases r with
    | nil => rfl
    | cons c t => simp [List.dropWhile, hr c t rfl]
  | cons c cs ih =>
    simp only [List.all_cons, Bool.and_eq_true] at hl
    simp [List.dropWhile, hl.1, ih hl.2]

theorem hexVal_hexDigitChar_mod (n : Nat) :
    hexVal (hexDigitChar (n % 16)) = some (n % 16) := by
  have h : n % 16 < 16 := Nat.mod_lt _ (by decide)
  generalize hm : n % 16 = m at h ⊢
  interval_cases m <;> decide

theorem parseStrBody_succ_u (f : Nat) (d1 d2 d3 d4 : Char) (cs3 : List Char) :
    parseStrBody (f + 1) (backslashChar :: 'u' :: d1 :: d2 :: d3 :: d4 :: cs3) =
      (match hexVal d1, hexVal d2, hexVal d3, hexVal d4 with
      | some a, some b, some c2, some d =>
        let n := a * 4096 + b * 256 + c2 * 16 + d
        if 55296 ≤ n ∧ n ≤ 56319 then
          match cs3 with
          | b1 :: u2 :: g1 :: g2 :: g3 :: g4 :: cs4 =>
            if b1 = backslashChar ∧ u2 = 'u' then
              match hexVal g1, hexVal g2, hexVal g3, hexVal g4 with
              | some e1, some e2, some e3, some e4 =>
                let m := e1 * 4096 + e2 * 256 + e3 * 16 + e4
                if 56320 ≤ m ∧ m ≤ 57343 then
                  (parseStrBody f cs4).map (fun p =>
                    (Char.ofNat (65536 + (n - 55296) * 1024 + (m - 56320)) :: p.1, p.2))
                else
                  (parseStrBody f cs3).map (fun p => (Char.ofNat 65533 :: p.1, p.2))
              | _, _, _, _ =>
                (parseStrBody f cs3).map (fun p => (Char.ofNat 65533 :: p.1, p.2))
            else (parseStrBody f cs3).map (fun p => (Char.ofNat 65533 :: p.1, p.2))
          | _ => (parseStrBody f cs3).map (fun p => (Char.ofNat 65533 :: p.1, p.2))
        else if 56320 ≤ n ∧ n ≤ 57343 then
          (parseStrBody f cs3).map (fun p => (Char.ofNat 65533 :: p.1, p.2))
        else (parseStrBody f cs3).map (fun p => (Char.ofNat n :: p.1, p.2))
      | _, _, _, _ => none) := rfl

theorem parseStrBody_succ_head (f : Nat) (c : Char) (cs : List Char) :
    parseStrBody (f + 1) (c :: cs) =
      (if c = quoteChar then some ([], cs)
      else if c = backslashChar then
        match cs with
        | [] => none
        | e :: cs2 =>
          if e = quoteChar then (parseStrBody f cs2).map (fun p => (quoteChar :: p.1, p.2))
          else if e = backslashChar then
            (parseStrBody f cs2).map (fun p => (backslashChar :: p.1, p.2))
          else if e = '/' then (parseStrBody f cs2).map (fun p => ('/' :: p.1, p.2))
          else if e = 'b' then (parseStrBody f cs2).map (fun p => (Char.ofNat 8 :: p.1, p.2))
          else if e = 'f' then (parseStrBody f cs2).map (fun p => (Char.ofNat 12 :: p.1, p.2))
          else if e = 'n' then (parseStrBody f cs2).map (fun p => ('\n' :: p.1, p.2))
          else if e = 'r' then (parseStrBody f cs2).map (fun p => ('\r' :: p.1, p.2))
          else if e = 't' then (parseStrBody f cs2).map (fun p => ('\t' :: p.1, p.2))
          else if e = 'u' then
            match cs2 with
            | h1 :: h2 :: h3 :: h4 :: cs3 =>
              match hexVal h1, hexVal h2, hexVal h3, hexVal h4 with
              | some a, some b, some c2, some d =>
                let n := a * 4096 + b * 256 + c2 * 16 + d
                if 55296 ≤ n ∧ n ≤ 56319 then
                  match cs3 with
                  | b1 :: u2 :: g1 :: g2 :: g3 :: g4 :: cs4 =>
                    if b1 = backslashChar ∧ u2 = 'u' then
                      match hexVal g1, hexVal g2, hexVal g3, hexVal g4 with
                      | some e1, some e2, some e3, some e4 =>
                        let m := e1 * 4096 + e2 * 256 + e3 * 16 + e4
                        if 56320 ≤ m ∧ m ≤ 57343 then
                          (parseStrBody f cs4).map (fun p =>
                            (Char.ofNat (65536 + (n - 55296) * 1024 + (m - 56320)) :: p.1, p.2))
                        else
                          (parseStrBody f cs3).map (fun p => (Char.ofNat 65533 :: p.1, p.2))
                      | _, _, _, _ =>
                        (parseStrBody f cs3).map (fun p => (Char.ofNat 65533 :: p.1, p.2))
                    else (parseStrBody f cs3).map (fun p => (Char.ofNat 65533 :: p.1, p.2))
                  | _ => (parseStrBody f cs3).map (fun p => (Char.ofNat 65533 :: p.1, p.2))
                else if 56320 ≤ n ∧ n ≤ 57343 then
                  (parseStrBody f cs3).map (fun p => (Char.ofNat 65533 :: p.1, p.2))
                else (parseStrBody f cs3).map (fun p => (Char.ofNat n :: p.1, p.2))
              | _, _, _, _ => none
            | _ => none
          else none
      else if c.toNat < 32 then none
      else (parseStrBody f cs).map (fun p => (c :: p.1, p.2))) := rfl

theorem parseStrBody_succ_plain (f : Nat) (c : Char) (R : List Char)
    (h1 : ¬ c = quoteChar) (h2 : ¬ c = backslashChar) (h3 : ¬ c.toNat < 32) :
    parseStrBody (f + 1) (c :: R) =
      (parseStrBody f R).map (fun p => (c :: p.1, p.2)) := by
  rw [parseStrBody_succ_head, if_neg h1, if_neg h2, if_neg h3]

theorem parseStrBody_escChar (c : Char) (f : Nat) (R : List Char) :
    parseStrBody (f + 1) (escChar c ++ R) =
      (parseStrBody f R).map (fun p => (c :: p.1, p.2)) := by
  simp only [escChar]
  split_ifs with h1 h2 h3 h4 h5 h6
  · subst h1; rfl
  · subst h2; rfl
  · subst h3; rfl
  · subst h4; rfl
  · subst h5; rfl
  · have hlt : c.toNat < 55296 := by
      rcases h6 with h | h | h | h | h | h
      · omega
      · subst h; decide
      · subst h; decide
      · subst h; decide
      · omega
      · omega
    have hrec : c.toNat / 4096 % 16 * 4096 + c.toNat / 256 % 16 * 256 +
        c.toNat / 16 % 16 * 16 + c.toNat % 16 = c.toNat := by omega
    simp only [List.cons_append, List.nil_append]
    rw [parseStrBody_succ_u]
    rw [hexVal_hexDigitChar_mod, hexVal_hexDigitChar_mod, hexVal_hexDigitChar_mod,
      hexVal_hexDigitChar_mod]
    simp only [hrec]
    rw [if_neg (by omega), if_neg (by omega)]
    simp [Char.ofNat_toNat]
  · have h32 : ¬ c.toNat < 32 := fun hh => h6 (Or.inl hh)
    simp only [List.cons_append, List.nil_append]
    rw [parseStrBody_succ_plain f c R h1 h2 h32]

theorem parseStrBody_escFold : ∀ (l : List Char) (fuel : Nat) (rest : List Char),
    l.length < fuel →
    parseStrBody fuel
        (l.foldr (fun c acc => escChar c ++ acc) [] ++ (quoteChar :: rest)) =
      some (l, rest) := by
  intro l
  induction l with
  | nil =>
    intro fuel rest h
    cases fuel with
    | zero => omega
    | succ f => rfl
  | cons c l ih =>
    intro fuel rest h
    cases fuel with
    | zero => omega
    | succ f =>
      simp only [List.foldr_cons, List.append_assoc]
      rw [parseStrBody_escChar, ih f rest (by simp at h; omega)]
      rfl

theorem escChar_length_pos (c : Char) : 1 ≤ (escChar c).length := by
  simp only [escChar]
  split_ifs <;> simp

theorem escFold_length (l : List Char) :
    l.length ≤ (l.foldr (fun c acc => escChar c ++ acc) []).length := by
  induction l with
  | nil => simp
  | cons c cs ih =>
    simp only [List.foldr_cons, List.length_append, List.length_cons]
    have := escChar_length_pos c
    omega

theorem numLit_head (c : Char) (t : List Char) (h : numLitOK (c :: t) = true) :
    c = '-' ∨ c.isDigit = true := by
  by_cases h1 : c = '-'
  · exact Or.inl h1
  by_cases h2 : c.isDigit = true
  · exact Or.inr h2
  exfalso
  simp only [numLitOK] at h
  have hinner : (match c :: t with | '-' :: t3 => t3 | x => c :: t) = c :: t := by
    split
    · next t3 heq2 => exact absurd (List.head_eq_of_cons_eq heq2) h1
    · rfl
  rw [hinner] at h
  split at h
  · next r1 heq =>
    have hc : c = '0' := List.head_eq_of_cons_eq heq
    subst hc
    exact h2 (by decide)
  · next c2 r2 hne heq =>
    have hc : c2 = c := (List.head_eq_of_cons_eq heq).symm
    subst hc
    rw [if_neg h2] at h
    exact absurd h (by simp)
  · next heq => simp at heq

theorem numLitOK_ne_nil (cs : List Char) (h : numLitOK cs = true) : cs ≠ [] := by
  intro hc
  subst hc
  exact absurd h (by decide)

theorem digit_head_facts (c : Char) (hd : c = '-' ∨ c.isDigit = true) :
    ¬ c = quoteChar ∧ ¬ c = '[' ∧ ¬ c = lbraceChar ∧ ¬ c = 't' ∧ ¬ c = 'f' ∧
      ¬ c = 'n' ∧ isJsonWs c = false ∧ ¬ c = ']' ∧ ¬ c = rbraceChar ∧
      isNumChar c = true := by
  rcases hd with rfl | hd
  · refine ⟨by decide, by decide, by decide, by decide, by decide, by decide,
      by decide, by decide, by decide, by decide⟩
  · refine ⟨?_, ?_, ?_, ?_, ?_, ?_, ?_, ?_, ?_, ?_⟩
    · rintro rfl; exact absurd hd (by decide)
    · rintro rfl; exact absurd hd (by decide)
    · rintro rfl; exact absurd hd (by decide)
    · rintro rfl; exact absurd hd (by decide)
    · rintro rfl; exact absurd hd (by decide)
    · rintro rfl; exact absurd hd (by decide)
    · simp only [isJsonWs, decide_eq_false_iff_not]
      rintro (rfl | rfl | rfl | rfl) <;> exact absurd hd (by decide)
    · rintro rfl; exact absurd hd (by decide)
    · rintro rfl; exact absurd hd (by decide)
    · simp [isNumChar, hd]

theorem marshal_head (v : Json) (h : WF v) :
    ∃ c t, marshalVal v = c :: t ∧ isJsonWs c = false ∧ ¬ c = ']' ∧
      ¬ c = rbraceChar := by
  cases h with
  | null => exact ⟨'n', _, rfl, by decide, by decide, by decide⟩
  | bool b =>
    cases b
    · exact ⟨'f', _, rfl, by decide, by decide, by decide⟩
    · exact ⟨'t', _, rfl, by decide, by decide, by decide⟩
  | num lit h1 h2 h3 =>
    obtain ⟨c, t, hct, hcd⟩ : ∃ c t, lit.data = c :: t ∧ (c = '-' ∨ c.isDigit = true) := by
      cases hl : lit.data with
      | nil => rw [hl] at h2; exact absurd h2 (by decide)
      | cons c t =>
        rw [hl] at h2
        exact ⟨c, t, rfl, numLit_head c t h2⟩
    obtain ⟨f1, f2, f3, f4, f5, f6, f7, f8, f9, f10⟩ := digit_head_facts c hcd
    exact ⟨c, t, by simpa [marshalVal] using hct, f7, f8, f9⟩
  | str s => exact ⟨quoteChar, _, rfl, by decide, by decide, by decide⟩
  | arr xs hx =>
    cases xs with
    | nil => exact ⟨'[', _, rfl, by decide, by decide, by decide⟩
    | cons x xs => exact ⟨'[', _, rfl, by decide, by decide, by decide⟩
  | obj es he =>
    cases es with
    | nil => exact ⟨lbraceChar, _, rfl, by decide, by decide, by decide⟩
    | cons e es => exact ⟨lbraceChar, _, rfl, by decide, by decide, by decide⟩

theorem marshalArrTail_length_pos (xs : List Json) :
    1 ≤ (marshalArrTail xs).length := by
  cases xs <;> simp [marshalArrTail]

theorem marshalObjTail_length_pos (es : List (String × Json)) :
    1 ≤ (marshalObjTail es).length := by
  cases es <;> simp [marshalObjTail]

theorem marshalVal_length_pos (v : Json) (h : WF v) :
    1 ≤ (marshalVal v).length := by
  cases h with
  | null => decide
  | bool b => cases b <;> decide
  | num lit h1 h2 h3 =>
    have := numLitOK_ne_nil _ h2
    simp only [marshalVal]
    cases hl : lit.data with
    | nil => exact absurd hl this
    | cons c t => simp [hl]
  | str s => simp [marshalVal]
  | arr xs hx => cases xs <;> simp [marshalVal]
  | obj es he => cases es <;> simp [marshalVal]

theorem parseVal_succ (f : Nat) (cs : List Char) :
    parseVal (f + 1) cs =
      (match skipWs cs with
      | [] => none
      | c :: cs2 =>
        if c = quoteChar then (parseStrBody f cs2).map (fun p => (Json.str p.1.asString, p.2))
        else if c = '[' then
          match skipWs cs2 with
          | ']' :: cs3 => some (.arr [], cs3)
          | cs3 => (parseArrItems f cs3).map (fun p => (.arr p.1, p.2))
        else if c = lbraceChar then
          match skipWs cs2 with
          | r :: cs3 =>
            if r = rbraceChar then some (.obj [], cs3)
            else (parseObjItems f (r :: cs3)).map (fun p => (.obj p.1, p.2))
          | [] => none
        else if c = 't' then
          match cs2 with
          | 'r' :: 'u' :: 'e' :: cs3 => some (.bool true, cs3)
          | _ => none
        else if c = 'f' then
          match cs2 with
          | 'a' :: 'l' :: 's' :: 'e' :: cs3 => some (.bool false, cs3)
          | _ => none
        else if c = 'n' then
          match cs2 with
          | 'u' :: 'l' :: 'l' :: cs3 => some (.null, cs3)
          | _ => none
        else
          let tok := (c :: cs2).takeWhile isNumChar
          if tok ≠ [] ∧ numLitOK tok ∧ numInRange tok then
            some (.num tok.asString, (c :: cs2).dropWhile isNumChar)
          else none) := rfl

theorem parseVal_succ_cons (f : Nat) (c : Char) (cs2 : List Char)
    (h : isJsonWs c = false) :
    parseVal (f + 1) (c :: cs2) =
      (if c = quoteChar then (parseStrBody f cs2).map (fun p => (Json.str p.1.asString, p.2))
      else if c = '[' then
        match skipWs cs2 with
        | ']' :: cs3 => some (.arr [], cs3)
        | cs3 => (parseArrItems f cs3).map (fun p => (.arr p.1, p.2))
      else if c = lbraceChar then
        match skipWs cs2 with
        | r :: cs3 =>
          if r = rbraceChar then some (.obj [], cs3)
          else (parseObjItems f (r :: cs3)).map (fun p => (.obj p.1, p.2))
        | [] => none
      else if c = 't' then
        match cs2 with
        | 'r' :: 'u' :: 'e' :: cs3 => some (.bool true, cs3)
        | _ => none
      else if c = 'f' then
        match cs2 with
        | 'a' :: 'l' :: 's' :: 'e' :: cs3 => some (.bool false, cs3)
        | _ => none
      else if c = 'n' then
        match cs2 with
        | 'u' :: 'l' :: 'l' :: cs3 => some (.null, cs3)
        | _ => none
      else
        let tok := (c :: cs2).takeWhile isNumChar
        if tok ≠ [] ∧ numLitOK tok ∧ numInRange tok then
          some (.num tok.asString, (c :: cs2).dropWhile isNumChar)
        else none) := by
  rw [parseVal_succ, skipWs_cons_of_not c cs2 h]

theorem parseArrItems_succ (f : Nat) (cs : List Char) :
    parseArrItems (f + 1) cs =
      (match parseVal f cs with
      | none => none
      | some (v, rest) =>
        match skipWs rest with
        | ',' :: rest2 =>
          match parseArrItems f rest2 with
          | none => none
          | some (vs, rest3) => some (v :: vs, rest3)
        | ']' :: rest2 => some ([v], rest2)
        | _ => none) := rfl

theorem parseObjItems_succ (f : Nat) (cs : List Char) :
    parseObjItems (f + 1) cs =
      (match skipWs cs with
      | c :: cs2 =>
        if c = quoteChar then
          match parseStrBody (cs2.length + 1) cs2 with
          | none => none
          | some (k, rest) =>
            match skipWs rest with
            | ':' :: rest2 =>
              match parseVal f rest2 with
              | none => none
              | some (v, rest3) =>
                match skipWs rest3 with
                | ',' :: rest4 =>
                  match parseObjItems f rest4 with
                  | none => none
                  | some (es, rest5) => some ((k.asString, v) :: es, rest5)
                | r :: rest4 => if r = rbraceChar then some ([(k.asString, v)], rest4) else none
                | [] => none
            | _ => none
        else none
      | [] => none) := rfl

theorem parseStrBody_escString (s : String) (fuel : Nat) (rest : List Char)
    (h : s.data.length < fuel) :
    parseStrBody fuel (escString s ++ (quoteChar :: rest)) = some (s.data, rest) :=
  parseStrBody_escFold s.data fuel rest h

theorem escString_length (s : String) : s.data.length ≤ (escString s).length :=
  escFold_length s.data

theorem numLit_split (lit : String) (h2 : numLitOK lit.data = true) :
    ∃ c t, lit.data = c :: t ∧ (c = '-' ∨ c.isDigit = true) := by
  cases hl : lit.data with
  | nil => rw [hl] at h2; exact absurd h2 (by decide)
  | cons c t =>
    rw [hl] at h2
    exact ⟨c, t, rfl, numLit_head c t h2⟩

theorem numBoundary_marshalArrTail (xs : List Json) (rest : List Char) :
    numBoundary (marshalArrTail xs ++ rest) := by
  cases xs with
  | nil => exact (by decide : isNumChar ']' = false)
  | cons y ys => exact (by decide : isNumChar ',' = false)

theorem numBoundary_marshalObjTail (es : List (String × Json)) (rest : List Char) :
    numBoundary (marshalObjTail es ++ rest) := by
  cases es with
  | nil => exact (by decide : isNumChar rbraceChar = false)
  | cons e es2 => exact (by decide : isNumChar ',' = false)

theorem roundtripAux : ∀ fuel : Nat,
    (∀ v rest, WF v → 2 * (marshalVal v).length < fuel → numBoundary rest →
      parseVal fuel (marshalVal v ++ rest) = some (v, rest)) ∧
    (∀ x xs rest, WF x → (∀ y ∈ xs, WF y) →
      2 * ((marshalVal x).length + (marshalArrTail xs).length) < fuel →
      parseArrItems fuel (marshalVal x ++ (marshalArrTail xs ++ rest)) =
        some (x :: xs, rest)) ∧
    (∀ k v es rest, WF v → (∀ e ∈ es, WF e.2) →
      2 * ((marshalEntry (k, v)).length + (marshalObjTail es).length) < fuel →
      parseObjItems fuel (marshalEntry (k, v) ++ (marshalObjTail es ++ rest)) =
        some ((k, v) :: es, rest)) := by
  intro fuel
  induction fuel with
  | zero =>
    refine ⟨fun v rest _ h _ => ?_, fun x xs rest _ _ h => ?_,
      fun k v es rest _ _ h => ?_⟩ <;> omega
  | succ f ih =>
    obtain ⟨ihP, ihQ, ihR⟩ := ih
    refine ⟨?_, ?_, ?_⟩
    · -- parseVal
      intro v rest hWF hfuel hbnd
      cases hWF with
      | null =>
        simp only [marshalVal, List.cons_append, List.nil_append]
        rw [parseVal_succ_cons f 'n' _ (by decide), if_neg (by decide),
          if_neg (by decide), if_neg (by decide), if_neg (by decide),
          if_neg (by decide), if_pos rfl]
        rfl
      | bool b =>
        cases b
        · simp only [marshalVal, List.cons_append, List.nil_append]
          rw [parseVal_succ_cons f 'f' _ (by decide), if_neg (by decide),
            if_neg (by decide), if_neg (by decide), if_neg (by decide),
            if_pos rfl]
          rfl
        · simp only [marshalVal, List.cons_append, List.nil_append]
          rw [parseVal_succ_cons f 't' _ (by decide), if_neg (by decide),
            if_neg (by decide), if_neg (by decide), if_pos rfl]
          rfl
      | str s =>
        simp only [marshalVal, List.cons_append, List.append_assoc,
          List.nil_append]
        rw [parseVal_succ_cons f quoteChar _ (by decide), if_pos rfl]
        have hlen : s.data.length < f := by
          have h1 := escString_length s
          simp only [marshalVal, List.length_cons, List.length_append] at hfuel
          omega
        rw [parseStrBody_escString s f rest hlen]
        rfl
      | num lit h1 h2 h3 =>
        obtain ⟨c, t, hct, hcd⟩ := numLit_split lit h2
        obtain ⟨f1, f2, f3, f4, f5, f6, f7, f8, f9, f10⟩ := digit_head_facts c hcd
        simp only [marshalVal, hct, List.cons_append]
        rw [parseVal_succ_cons f c _ f7, if_neg f1, if_neg f2, if_neg f3,
          if_neg f4, if_neg f5, if_neg f6]
        have hall : (c :: t).all isNumChar = true := by rw [← hct]; exact h1
        have hbnd2 : ∀ c2 t2, rest = c2 :: t2 → isNumChar c2 = false := by
          intro c2 t2 hr
          rw [hr] at hbnd
          exact hbnd
        have htok := takeWhile_append_all isNumChar (c :: t) rest hall hbnd2
        have hdrop := dropWhile_append_all isNumChar (c :: t) rest hall hbnd2
        simp only [List.cons_append] at htok hdrop
        simp only [htok, hdrop]
        rw [if_pos ⟨List.cons_ne_nil c t, by rw [← hct]; exact h2, by rw [← hct]; exact h3⟩]
        have hback : (c :: t).asString = lit := by
          rw [← hct]
          rfl
        exact congrArg some (congrArg (fun z => (Json.num z, rest)) hback)
      | arr xs hx =>
        cases xs with
        | nil =>
          simp only [marshalVal, List.cons_append, List.nil_append]
          rw [parseVal_succ_cons f '[' _ (by decide), if_neg (by decide),
            if_pos rfl, skipWs_cons_of_not ']' rest (by decide)]
          rfl
        | cons x xs =>
          simp only [marshalVal, List.cons_append, List.append_assoc]
          rw [parseVal_succ_cons f '[' _ (by decide), if_neg (by decide),
            if_pos rfl]
          have hWFx : WF x := hx x (by simp)
          obtain ⟨c0, t0, hm, hws, hbr, hbr2⟩ := marshal_head x hWFx
          rw [hm]
          simp only [List.cons_append]
          rw [skipWs_cons_of_not c0 _ hws]
          split
          · next cs3 heq =>
            exact absurd (List.head_eq_of_cons_eq heq) hbr
          · have harith : 2 * ((marshalVal x).length +
                (marshalArrTail xs).length) < f := by
              simp only [marshalVal, List.length_cons, List.length_append]
                at hfuel
              omega
            rw [show c0 :: (t0 ++ (marshalArrTail xs ++ rest)) =
                marshalVal x ++ (marshalArrTail xs ++ rest) by
              rw [hm]; simp]
            rw [ihQ x xs rest hWFx (fun y hy => hx y (by simp [hy])) harith]
            rfl
      | obj es he =>
        cases es with
        | nil =>
          simp only [marshalVal, List.cons_append, List.nil_append]
          rw [parseVal_succ_cons f lbraceChar _ (by decide),
            if_neg (by decide), if_neg (by decide), if_pos rfl,
            skipWs_cons_of_not rbraceChar rest (by decide)]
          rfl
        | cons e es =>
          obtain ⟨k, v⟩ := e
          simp only [marshalVal, marshalEntry, List.cons_append,
            List.append_assoc, List.nil_append]
          rw [parseVal_succ_cons f lbraceChar _ (by decide),
            if_neg (by decide), if_neg (by decide), if_pos rfl,
            skipWs_cons_of_not quoteChar _ (by decide)]
          have hred : ∀ L : List Char,
              (match (quoteChar :: L : List Char) with
              | r :: cs3 =>
                if r = rbraceChar then some (Json.obj [], cs3)
                else (parseObjItems f (r :: cs3)).map
                  (fun p => (Json.obj p.1, p.2))
              | [] => none) =
                (parseObjItems f (quoteChar :: L)).map
                  (fun p => (Json.obj p.1, p.2)) := fun L => rfl
          rw [hred]
          have harith : 2 * ((marshalEntry (k, v)).length +
              (marshalObjTail es).length) < f := by
            simp only [marshalVal, marshalEntry, List.length_cons,
              List.length_append] at hfuel ⊢
            omega
          rw [show quoteChar :: (escString k ++ (quoteChar :: (':' ::
              (marshalVal v ++ (marshalObjTail es ++ rest))))) =
              marshalEntry (k, v) ++ (marshalObjTail es ++ rest) by
            simp [marshalEntry]]
          rw [ihR k v es rest (he (k, v) (by simp))
            (fun e2 he2 => he e2 (by simp [he2])) harith]
          rfl
    · -- parseArrItems
      intro x xs rest hx hxs hfuel
      rw [parseArrItems_succ]
      have hbnd := numBoundary_marshalArrTail xs rest
      have harithP : 2 * (marshalVal x).length < f := by
        have h1 := marshalArrTail_length_pos xs
        omega
      rw [ihP x _ hx harithP hbnd]
      cases xs with
      | nil =>
        simp only [marshalArrTail, List.cons_append, List.nil_append]
        rw [skipWs_cons_of_not ']' rest (by decide)]
        rfl
      | cons y ys =>
        simp only [marshalArrTail, List.cons_append, List.append_assoc]
        rw [skipWs_cons_of_not ',' _ (by decide)]
        have hred : ∀ L : List Char,
            (match (',' :: L : List Char) with
            | ',' :: rest2 =>
              match parseArrItems f rest2 with
              | none => none
              | some (vs, rest3) => some (x :: vs, rest3)
            | ']' :: rest2 => some ([x], rest2)
            | _ => none) =
              (match parseArrItems f L with
              | none => none
              | some (vs, rest3) => some (x :: vs, rest3)) := fun L => rfl
        rw [hred]
        have harithQ : 2 * ((marshalVal y).length +
            (marshalArrTail ys).length) < f := by
          have h1 := marshalVal_length_pos x hx
          simp only [marshalArrTail, List.length_cons, List.length_append]
            at hfuel
          omega
        rw [ihQ y ys rest (hxs y (by simp))
          (fun z hz => hxs z (by simp [hz])) harithQ]
    · -- parseObjItems
      intro k v es rest hv hes hfuel
      simp only [marshalEntry, List.cons_append, List.append_assoc,
        List.nil_append]
      rw [parseObjItems_succ, skipWs_cons_of_not quoteChar _ (by decide)]
      have hred : ∀ L : List Char,
          (match (quoteChar :: L : List Char) with
          | c :: cs2 =>
            if c = quoteChar then
              match parseStrBody (cs2.length + 1) cs2 with
              | none => none
              | some (k2, rest0) =>
                match skipWs rest0 with
                | ':' :: rest2 =>
                  match parseVal f rest2 with
                  | none => none
                  | some (v2, rest3) =>
                    match skipWs rest3 with
                    | ',' :: rest4 =>
                      match parseObjItems f rest4 with
                      | none => none
                      | some (es2, rest5) =>
                        some ((k2.asString, v2) :: es2, rest5)
                    | r :: rest4 =>
                      if r = rbraceChar then
                        some ([(k2.asString, v2)], rest4)
                      else none
                    | [] => none
                | _ => none
            else none
          | [] => none) =
            (match parseStrBody (L.length + 1) L with
            | none => none
            | some (k2, rest0) =>
              match skipWs rest0 with
              | ':' :: rest2 =>
                match parseVal f rest2 with
                | none => none
                | some (v2, rest3) =>
                  match skipWs rest3 with
                  | ',' :: rest4 =>
                    match parseObjItems f rest4 with
                    | none => none
                    | some (es2, rest5) =>
                      some ((k2.asString, v2) :: es2, rest5)
                  | r :: rest4 =>
                    if r = rbraceChar then
                      some ([(k2.asString, v2)], rest4)
                    else none
                  | [] => none
              | _ => none) := fun L => rfl
      rw [hred]
      have hklen : k.data.length <
          (escString k ++ (quoteChar :: (':' ::
            (marshalVal v ++ (marshalObjTail es ++ rest))))).length + 1 := by
        have h1 := escString_length k
        simp only [List.length_append, List.length_cons]
        omega
      rw [parseStrBody_escString k _ _ hklen]
      simp only []
      rw [skipWs_cons_of_not ':' _ (by decide)]
      have hbnd := numBoundary_marshalObjTail es rest
      have harithP : 2 * (marshalVal v).length < f := by
        have h1 := marshalObjTail_length_pos es
        have h2 := escString_length k
        simp only [marshalEntry, List.length_cons, List.length_append] at hfuel
        omega
      have hred3 : ∀ L : List Char,
          (match (':' :: L : List Char) with
          | ':' :: rest2 =>
            match parseVal f rest2 with
            | none => none
            | some (v2, rest3) =>
              match skipWs rest3 with
              | ',' :: rest4 =>
                match parseObjItems f rest4 with
                | none => none
                | some (es2, rest5) =>
                  some ((k.data.asString, v2) :: es2, rest5)
              | r :: rest4 =>
                if r = rbraceChar then
                  some ([(k.data.asString, v2)], rest4)
                else none
              | [] => none
          | _ => none) =
            (match parseVal f L with
            | none => none
            | some (v2, rest3) =>
              match skipWs rest3 with
              | ',' :: rest4 =>
                match parseObjItems f rest4 with
                | none => none
                | some (es2, rest5) =>
                  some ((k.data.asString, v2) :: es2, rest5)
              | r :: rest4 =>
                if r = rbraceChar then
                  some ([(k.data.asString, v2)], rest4)
                else none
              | [] => none) := fun L => rfl
      rw [hred3, ihP v _ hv harithP hbnd]
      cases es with
      | nil =>
        simp only [marshalObjTail, List.cons_append, List.nil_append]
        rw [skipWs_cons_of_not rbraceChar rest (by decide)]
        rfl
      | cons e2 es2 =>
        obtain ⟨k2, v2⟩ := e2
        simp only [marshalObjTail, List.cons_append, List.append_assoc]
        rw [skipWs_cons_of_not ',' _ (by decide)]
        have hred4 : ∀ L : List Char,
            (match (',' :: L : List Char) with
            | ',' :: rest4 =>
              match parseObjItems f rest4 with
              | none => none
              | some (es2, rest5) =>
                some ((k.data.asString, v) :: es2, rest5)
            | r :: rest4 =>
              if r = rbraceChar then
                some ([(k.data.asString, v)], rest4)
              else none
            | [] => none) =
              (match parseObjItems f L with
              | none => none
              | some (es2, rest5) =>
                some ((k.data.asString, v) :: es2, rest5)) := fun L => rfl
        rw [hred4]
        have harithR : 2 * ((marshalEntry (k2, v2)).length +
            (marshalObjTail es2).length) < f := by
          have h1 := marshalVal_length_pos v hv
          have h2 := escString_length k
          simp only [marshalEntry, marshalObjTail, List.length_cons,
            List.length_append] at hfuel ⊢
          omega
        rw [ihR k2 v2 es2 rest (hes (k2, v2) (by simp))
          (fun e3 he3 => hes e3 (by simp [he3])) harithR]
        rfl

theorem parseWFAux : ∀ fuel : Nat,
    (∀ cs v rest, parseVal fuel cs = some (v, rest) → WF v) ∧
    (∀ cs vs rest, parseArrItems fuel cs = some (vs, rest) → ∀ x ∈ vs, WF x) ∧
    (∀ cs es rest, parseObjItems fuel cs = some (es, rest) → ∀ e ∈ es, WF e.2) := by
  intro fuel
  induction fuel with
  | zero =>
    refine ⟨fun cs v rest h => ?_, fun cs vs rest h => ?_, fun cs es rest h => ?_⟩ <;>
      simp [parseVal, parseArrItems, parseObjItems] at h
  | succ f ih =>
    obtain ⟨ihP, ihQ, ihR⟩ := ih
    refine ⟨?_, ?_, ?_⟩
    · intro cs v rest h
      rw [parseVal_succ] at h
      split at h
      · exact absurd h (by simp)
      · split at h
        · obtain ⟨p, hp, heq⟩ := Option.map_eq_some'.1 h
          obtain ⟨h1, h2⟩ := Prod.mk.injEq .. ▸ heq
          exact h1 ▸ WF.str _
        · split at h
          · split at h
            · obtain ⟨h1, h2⟩ := Prod.mk.injEq .. ▸ (Option.some.injEq .. ▸ h)
              exact h1 ▸ WF.arr [] (by simp)
            · obtain ⟨p, hp, heq⟩ := Option.map_eq_some'.1 h
              obtain ⟨h1, h2⟩ := Prod.mk.injEq .. ▸ heq
              exact h1 ▸ WF.arr _ (ihQ _ _ _ hp)
          · split at h
            · split at h
              · split at h
                · obtain ⟨h1, h2⟩ := Prod.mk.injEq .. ▸ (Option.some.injEq .. ▸ h)
                  exact h1 ▸ WF.obj [] (by simp)
                · obtain ⟨p, hp, heq⟩ := Option.map_eq_some'.1 h
                  obtain ⟨h1, h2⟩ := Prod.mk.injEq .. ▸ heq
                  exact h1 ▸ WF.obj _ (ihR _ _ _ hp)
              · exact absurd h (by simp)
            · split at h
              · split at h
                · obtain ⟨h1, h2⟩ := Prod.mk.injEq .. ▸ (Option.some.injEq .. ▸ h)
                  exact h1 ▸ WF.bool true
                · exact absurd h (by simp)
              · split at h
                · split at h
                  · obtain ⟨h1, h2⟩ := Prod.mk.injEq .. ▸ (Option.some.injEq .. ▸ h)
                    exact h1 ▸ WF.bool false
                  · exact absurd h (by simp)
                · split at h
                  · split at h
                    · obtain ⟨h1, h2⟩ := Prod.mk.injEq .. ▸ (Option.some.injEq .. ▸ h)
                      exact h1 ▸ WF.null
                    · exact absurd h (by simp)
                  · simp only [ne_eq] at h
                    split at h
                    · next hcond =>
                      obtain ⟨h1, h2⟩ := Prod.mk.injEq .. ▸ (Option.some.injEq .. ▸ h)
                      refine h1 ▸ WF.num _ ?_ ?_ ?_
                      · exact all_takeWhile_self isNumChar _
                      · exact hcond.2.1
                      · exact hcond.2.2
                    · exact absurd h (by simp)
    · intro cs vs rest h
      rw [parseArrItems_succ] at h
      split at h
      · exact absurd h (by simp)
      · next v rest0 hv =>
        split at h
        · split at h
          · exact absurd h (by simp)
          · next vs2 rest3 hvs =>
            obtain ⟨h1, h2⟩ := Prod.mk.injEq .. ▸ (Option.some.injEq .. ▸ h)
            subst h1
            intro x hx
            rcases List.mem_cons.1 hx with rfl | hx2
            · exact ihP _ _ _ hv
            · exact ihQ _ _ _ hvs x hx2
        · obtain ⟨h1, h2⟩ := Prod.mk.injEq .. ▸ (Option.some.injEq .. ▸ h)
          subst h1
          intro x hx
          rcases List.mem_singleton.1 hx with rfl
          exact ihP _ _ _ hv
        · exact absurd h (by simp)
    · intro cs es rest h
      rw [parseObjItems_succ] at h
      split at h
      · split at h
        · split at h
          · exact absurd h (by simp)
          · next k rest0 hk =>
            split at h
            · split at h
              · exact absurd h (by simp)
              · next v rest3 hv =>
                split at h
                · split at h
                  · exact absurd h (by simp)
                  · next es2 rest5 hes =>
                    obtain ⟨h1, h2⟩ := Prod.mk.injEq .. ▸ (Option.some.injEq .. ▸ h)
                    subst h1
                    intro e he
                    rcases List.mem_cons.1 he with rfl | he2
                    · exact ihP _ _ _ hv
                    · exact ihR _ _ _ hes e he2
                · split at h
                  · obtain ⟨h1, h2⟩ := Prod.mk.injEq .. ▸ (Option.some.injEq .. ▸ h)
                    subst h1
                    intro e he
                    rcases List.mem_singleton.1 he with rfl
                    exact ihP _ _ _ hv
                  · exact absurd h (by simp)
                · exact absurd h (by simp)
            · exact absurd h (by simp)
        · exact absurd h (by simp)
      · exact absurd h (by simp)

theorem parseJson_WF (s : String) (v : Json) (h : parseJson s = some v) : WF v := by
  simp only [parseJson] at h
  split at h
  · exact absurd h (by simp)
  · next v2 rest hv =>
    split at h
    · exact (Option.some.injEq .. ▸ h) ▸ (parseWFAux _).1 _ _ _ hv
    · exact absurd h (by simp)

theorem parseJson_marshal (v : Json) (h : WF v) :
    parseJson (marshalVal v).asString = some v := by
  have h1 := ((roundtripAux (2 * (marshalVal v).length + 2)).1 v [] h
    (by omega) trivial)
  rw [List.append_nil] at h1
  simp only [parseJson]
  have hdata : ((marshalVal v).asString).data = marshalVal v := rfl
  rw [hdata, h1]
  rfl

/-! ### Canonicalization -/

theorem dedupLast_subset (es : List (String × Json)) (e : String × Json)
    (h : e ∈ dedupLast es) : e ∈ es := by
  induction es with
  | nil => simp [dedupLast] at h
  | cons e2 rest ih =>
    simp only [dedupLast] at h
    split at h
    · exact List.mem_cons_of_mem e2 (ih h)
    · rcases List.mem_cons.1 h with rfl | h2
      · exact List.mem_cons_self e rest
      · exact List.mem_cons_of_mem e2 (ih h2)

theorem dedupLast_keys_nodup (es : List (String × Json)) :
    ((dedupLast es).map Prod.fst).Nodup := by
  induction es with
  | nil => simp [dedupLast]
  | cons e rest ih =>
    simp only [dedupLast]
    split
    · exact ih
    · next hany =>
      simp only [List.map_cons, List.nodup_cons]
      refine ⟨?_, ih⟩
      intro hmem
      obtain ⟨x, hx, hxe⟩ := List.mem_map.1 hmem
      have hx2 := dedupLast_subset rest x hx
      have : rest.any (fun y => y.1 = e.1) = true :=
        List.any_eq_true.2 ⟨x, hx2, by simp [hxe]⟩
      simp [this] at hany

theorem dedupLast_of_nodup (es : List (String × Json))
    (h : (es.map Prod.fst).Nodup) : dedupLast es = es := by
  induction es with
  | nil => rfl
  | cons e rest ih =>
    simp only [List.map_cons, List.nodup_cons] at h
    have hany : rest.any (fun y => y.1 = e.1) = false := by
      rw [List.any_eq_false]
      intro x hx
      simp only [decide_eq_true_eq]
      intro hxe
      exact h.1 (List.mem_map.2 ⟨x, hx, hxe⟩)
    simp only [dedupLast, hany]
    simp [ih h.2]

theorem canonEntries_keys (es : List (String × Json)) :
    (canonEntries es).map Prod.fst = es.map Prod.fst := by
  induction es with
  | nil => rfl
  | cons e rest ih =>
    obtain ⟨k, v⟩ := e
    simp [canonEntries, ih]

theorem mem_canonEntries (es : List (String × Json)) (p : String × Json) :
    p ∈ canonEntries es ↔ ∃ v, (p.1, v) ∈ es ∧ p.2 = canonicalize v := by
  induction es with
  | nil => simp [canonEntries]
  | cons e rest ih =>
    obtain ⟨k, v⟩ := e
    simp only [canonEntries, List.mem_cons, ih]
    constructor
    · rintro (rfl | ⟨w, hw, hp⟩)
      · exact ⟨v, Or.inl rfl, rfl⟩
      · exact ⟨w, Or.inr hw, hp⟩
    · rintro ⟨w, hw | hw, hp⟩
      · left
        obtain ⟨h1, h2⟩ := Prod.mk.injEq .. ▸ hw
        obtain ⟨pk, pv⟩ := p
        simp only at hp h1
        simp [h1, h2 ▸ hp]
      · right
        exact ⟨w, hw, hp⟩

theorem canonEntries_eq_self (es : List (String × Json))
    (h : ∀ e ∈ es, canonicalize e.2 = e.2) : canonEntries es = es := by
  induction es with
  | nil => rfl
  | cons e rest ih =>
    obtain ⟨k, v⟩ := e
    simp only [canonEntries]
    rw [h (k, v) (by simp), ih (fun e2 he2 => h e2 (by simp [he2]))]

theorem mem_canonList (xs : List Json) (y : Json) :
    y ∈ canonList xs ↔ ∃ x ∈ xs, y = canonicalize x := by
  induction xs with
  | nil => simp [canonList]
  | cons x rest ih =>
    simp only [canonList, List.mem_cons, ih]
    constructor
    · rintro (rfl | ⟨z, hz, hy⟩)
      · exact ⟨x, Or.inl rfl, rfl⟩
      · exact ⟨z, Or.inr hz, hy⟩
    · rintro ⟨z, hz | hz, hy⟩
      · exact Or.inl (hz ▸ hy)
      · exact Or.inr ⟨z, hz, hy⟩

theorem canonList_eq_self (xs : List Json)
    (h : ∀ x ∈ xs, canonicalize x = x) : canonList xs = xs := by
  induction xs with
  | nil => rfl
  | cons x rest ih =>
    simp only [canonList]
    rw [h x (by simp), ih (fun z hz => h z (by simp [hz]))]

theorem WF_canon (v : Json) (h : WF v) : WF (canonicalize v) := by
  induction h with
  | null => exact WF.null
  | bool b => exact WF.bool b
  | num lit h1 h2 h3 => exact WF.num lit h1 h2 h3
  | str s => exact WF.str s
  | arr xs hx ih =>
    simp only [canonicalize]
    refine WF.arr _ ?_
    intro y hy
    obtain ⟨x, hx2, rfl⟩ := (mem_canonList xs y).1 hy
    exact ih x hx2
  | obj es he ih =>
    simp only [canonicalize]
    refine WF.obj _ ?_
    intro e hee
    have h1 : e ∈ dedupLast (canonEntries es) := (List.mem_insertionSort entryLE).1 hee
    have h2 : e ∈ canonEntries es := dedupLast_subset _ e h1
    obtain ⟨v2, hv2, hp⟩ := (mem_canonEntries es e).1 h2
    rw [hp]
    exact ih (e.1, v2) hv2

theorem sorted_strict (l : List (String × Json)) (h1 : List.Sorted entryLE l)
    (h2 : (l.map Prod.fst).Nodup) : List.Sorted entryLT l := by
  have h3 : List.Pairwise (fun a b : String × Json => a.1 ≠ b.1) l :=
    List.pairwise_map.1 h2
  exact h1.and h3

theorem sort_eq_of_perm (l1 l2 : List (String × Json)) (hp : l1.Perm l2)
    (hn1 : (l1.map Prod.fst).Nodup) :
    List.insertionSort entryLE l1 = List.insertionSort entryLE l2 := by
  have hn2 : (l2.map Prod.fst).Nodup := ((hp.map Prod.fst).nodup_iff).1 hn1
  have hs1 := List.sorted_insertionSort entryLE l1
  have hs2 := List.sorted_insertionSort entryLE l2
  have hperm : (List.insertionSort entryLE l1).Perm (List.insertionSort entryLE l2) :=
    (List.perm_insertionSort entryLE l1).trans
      (hp.trans (List.perm_insertionSort entryLE l2).symm)
  have hk1 : ((List.insertionSort entryLE l1).map Prod.fst).Nodup :=
    (((List.perm_insertionSort entryLE l1).map Prod.fst).nodup_iff).2 hn1
  have hk2 : ((List.insertionSort entryLE l2).map Prod.fst).Nodup :=
    (((List.perm_insertionSort entryLE l2).map Prod.fst).nodup_iff).2 hn2
  exact List.eq_of_perm_of_sorted hperm (sorted_strict _ hs1 hk1)
    (sorted_strict _ hs2 hk2)

theorem canonEq (v w : Json) (h : KeyPerm v w) :
    canonicalize v = canonicalize w := by
  induction h with
  | null => rfl
  | bool b => rfl
  | num l => rfl
  | str s => rfl
  | arrNil => rfl
  | arrCons h1 h2 ih1 ih2 =>
    simp only [canonicalize, canonList] at ih2 ⊢
    have h3 := Json.arr.injEq .. ▸ ih2
    rw [ih1, h3]
  | obj hnd1 hnd2 hperm hpt ih =>
    next es fs =>
    simp only [canonicalize]
    have hk1 : ((canonEntries es).map Prod.fst).Nodup := by
      rw [canonEntries_keys]; exact hnd1
    have hk2 : ((canonEntries fs).map Prod.fst).Nodup := by
      rw [canonEntries_keys]; exact hnd2
    rw [dedupLast_of_nodup _ hk1, dedupLast_of_nodup _ hk2]
    have hmem : ∀ p, p ∈ canonEntries es ↔ p ∈ canonEntries fs := by
      intro p
      constructor
      · intro hp
        obtain ⟨v2, hv2, hp2⟩ := (mem_canonEntries es p).1 hp
        have hkey : p.1 ∈ fs.map Prod.fst :=
          hperm.mem_iff.1 (List.mem_map.2 ⟨(p.1, v2), hv2, rfl⟩)
        obtain ⟨⟨k2, w2⟩, hw2, hke⟩ := List.mem_map.1 hkey
        simp only at hke
        subst hke
        refine (mem_canonEntries fs p).2 ⟨w2, hw2, ?_⟩
        rw [hp2, ih p.1 v2 w2 hv2 hw2]
      · intro hp
        obtain ⟨w2, hw2, hp2⟩ := (mem_canonEntries fs p).1 hp
        have hkey : p.1 ∈ es.map Prod.fst :=
          hperm.mem_iff.2 (List.mem_map.2 ⟨(p.1, w2), hw2, rfl⟩)
        obtain ⟨⟨k2, v2⟩, hv2, hke⟩ := List.mem_map.1 hkey
        simp only at hke
        subst hke
        refine (mem_canonEntries es p).2 ⟨v2, hv2, ?_⟩
        rw [hp2, ih p.1 v2 w2 hv2 hw2]
    have hent : (canonEntries es).Perm (canonEntries fs) := by
      refine (List.perm_ext_iff_of_nodup ?_ ?_).2 hmem
      · exact List.Nodup.of_map Prod.fst hk1
      · exact List.Nodup.of_map Prod.fst hk2
    rw [sort_eq_of_perm _ _ hent hk1]

theorem canon_idem : ∀ v : Json, canonicalize (canonicalize v) = canonicalize v := by
  refine jsonMemRec (fun v => canonicalize (canonicalize v) = canonicalize v)
    rfl (fun b => rfl) (fun l => rfl) (fun s => rfl) ?_ ?_
  · intro xs ih
    simp only [canonicalize]
    rw [canonList_eq_self (canonList xs) (fun y hy => by
      obtain ⟨x, hx, rfl⟩ := (mem_canonList xs y).1 hy
      exact ih x hx)]
  · intro es ih
    simp only [canonicalize]
    have hL : ∀ e, e ∈ List.insertionSort entryLE (dedupLast (canonEntries es)) →
        canonicalize e.2 = e.2 := by
      intro e hee
      have h1 := dedupLast_subset _ e ((List.mem_insertionSort entryLE).1 hee)
      obtain ⟨v2, hv2, hp⟩ := (mem_canonEntries es e).1 h1
      rw [hp]
      exact ih (e.1, v2) hv2
    rw [canonEntries_eq_self _ hL]
    have hnd : ((List.insertionSort entryLE (dedupLast (canonEntries es))).map
        Prod.fst).Nodup :=
      (((List.perm_insertionSort entryLE _).map Prod.fst).nodup_iff).2
        (dedupLast_keys_nodup (canonEntries es))
    rw [dedupLast_of_nodup _ hnd]
    rw [List.Sorted.insertionSort_eq (List.sorted_insertionSort entryLE _)]

theorem canonicalizeJSON_parse_some (x : String) (v : Json)
    (h : parseJson x = some v) :
    canonicalizeJSON x = (marshalVal (canonicalize v)).asString := by
  simp [canonicalizeJSON, h]

theorem canonicalizeJSON_parse_none (x : String) (h : parseJson x = none) :
    canonicalizeJSON x = x := by
  simp [canonicalizeJSON, h]

end Agentpay
